import Mathlib

/-!
Verification of the aiochsa response decoder (`aiochsa/parser.py`).

The development shallowly embeds the decoding subsystem:

* `Json` is the raw JSON document as it stands on the wire.  A floating-point
  literal is kept together with its original decimal text
  (constructor `Json.floatLit`), because `parse_json_compact` calls
  `json.loads(body, parse_float=str)`: float literals are handed to `str`
  and therefore reach the converters as their exact source text.
* `PyValue` is the Python value produced by `json.loads`; `jsonLoads` is the
  translation (with `parse_float=str`, so `floatLit t ↦ str t`).
* The type-declaration grammar (`type.lark` is referenced but not part of the
  sources; the parser below is modelled from the spec's EBNF) produces an
  `Ast`, which `resolveAst` (the `TypeTransformer` of `parser.py`: bottom-up,
  arguments before the enclosing constructor, registry lookup by name)
  turns into a `TypeDesc`.
* `parse_json_compact` is the async generator of `parser.py` lines 41-60,
  embedded as a function of the number `k` of records the consumer requests.
  A Python async generator runs no code until the first `__anext__`, converts
  row `i` only when record `i` is requested, and aborts by raising; the
  embedding returns the trace of observable events (`Ev`), the list of
  records already yielded to the consumer, and the error it raised, if any.
-/

/-- Raw JSON tree as read from the wire.  `floatLit` keeps the original
decimal text of a floating-point literal; `intLit` is an integer literal
(Python parses those exactly, so the numeric value is kept). -/
inductive Json where
  | null
  | bool (b : Bool)
  | intLit (n : Int)
  | floatLit (text : String)
  | str (s : String)
  | arr (xs : List Json)
  | obj (fields : List (String × Json))

/-- Python values produced by `json.loads`. -/
inductive PyValue where
  | none
  | bool (b : Bool)
  | int (n : Int)
  | str (s : String)
  | list (xs : List PyValue)
  | dict (fields : List (String × PyValue))

mutual
/-- `json.loads(body, parse_float=str)` (parser.py line 44): every float
literal becomes the string holding its original decimal text. -/
def jsonLoads : Json → PyValue
  | .null => .none
  | .bool b => .bool b
  | .intLit n => .int n
  | .floatLit t => .str t
  | .str s => .str s
  | .arr xs => .list (jsonLoadsL xs)
  | .obj fs => .dict (jsonLoadsF fs)

def jsonLoadsL : List Json → List PyValue
  | [] => []
  | x :: xs => jsonLoads x :: jsonLoadsL xs

def jsonLoadsF : List (String × Json) → List (String × PyValue)
  | [] => []
  | (k, v) :: fs => (k, jsonLoads v) :: jsonLoadsF fs
end

/-- Last-occurrence lookup in an association list: Python dict literals built
by `json.loads` keep the last binding of a repeated key, and `d[k]` reads it. -/
def lookupLast {α : Type} (fs : List (String × α)) (k : String) : Option α :=
  match fs with
  | [] => none
  | (k', v) :: rest =>
    match lookupLast rest k with
    | some r => some r
    | none => if k' = k then some v else none

/-- `d[k]` on a Python value: defined for dicts only (KeyError / TypeError
otherwise, represented by `none`). -/
def pyGet (v : PyValue) (k : String) : Option PyValue :=
  match v with
  | .dict fs => lookupLast fs k
  | _ => none

/-- One step of a path into a JSON document: list index or object key. -/
inductive Step where
  | idx (n : Nat)
  | key (s : String)

/-- Subterm of a raw JSON document at a path. -/
def Json.get? (j : Json) : List Step → Option Json
  | [] => some j
  | .idx n :: p =>
    match j with
    | .arr xs =>
      match xs.get? n with
      | some x => Json.get? x p
      | none => none
    | _ => none
  | .key s :: p =>
    match j with
    | .obj fs =>
      match lookupLast fs s with
      | some x => Json.get? x p
      | none => none
    | _ => none

/-- Subterm of a Python value at a path. -/
def PyValue.get? (v : PyValue) : List Step → Option PyValue
  | [] => some v
  | .idx n :: p =>
    match v with
    | .list xs =>
      match xs.get? n with
      | Option.some x => PyValue.get? x p
      | Option.none => Option.none
    | _ => Option.none
  | .key s :: p =>
    match v with
    | .dict fs =>
      match lookupLast fs s with
      | Option.some x => PyValue.get? x p
      | Option.none => Option.none
    | _ => Option.none

/-- Modelled from the spec: the type-descriptor hierarchy (`aiochsa/types.py`
is not among the sources; §4.3 of the spec describes the decoding families).
A representative subset is embedded — the claims quantify over arbitrary
registries, so the subset only feeds concrete witnesses. -/
inductive TypeDesc where
  | string
  | uInt (bits : Nat)
  | nullable (t : TypeDesc)
  | array (t : TypeDesc)
  | tuple (ts : List TypeDesc)
  | enum8 (labels : List (String × Int))

/-- Decoded native value. -/
inductive Native where
  | none
  | int (n : Int)
  | str (s : String)
  | list (xs : List Native)

/-- Modelled from the spec: a converter failure carries the descriptor family
and the offending raw value — all a `from_json` converter can know, since
(parser.py line 57) it receives exactly one positional value and nothing
else: no column name and no row index ever reach it. -/
inductive ConvErr where
  | decodeValue (expected : String) (raw : PyValue)

mutual
/-- Modelled from the spec (§4.3): the per-family wire-to-native conversion,
with a fuel argument bounding the recursion depth (adequate fuel is supplied
by `from_json`; every recursive call strictly shrinks descriptor + value). -/
def fromJsonF : Nat → TypeDesc → PyValue → Except ConvErr Native
  | 0, _, v => .error (.decodeValue "depth" v)
  | _ + 1, .string, .str s => .ok (.str s)
  | _ + 1, .string, v => .error (.decodeValue "String" v)
  | _ + 1, .uInt bits, .int n =>
      if 0 ≤ n ∧ n < (2 : Int) ^ bits then .ok (.int n)
      else .error (.decodeValue "UInt" (.int n))
  | _ + 1, .uInt _, v => .error (.decodeValue "UInt" v)
  | _ + 1, .nullable _, .none => .ok .none
  | f + 1, .nullable t, v => fromJsonF f t v
  | f + 1, .array t, .list xs => (fromJsonManyF f t xs).map .list
  | _ + 1, .array _, v => .error (.decodeValue "Array" v)
  | f + 1, .tuple ts, .list xs =>
      if xs.length = ts.length then (fromJsonEachF f ts xs).map .list
      else .error (.decodeValue "Tuple" (.list xs))
  | _ + 1, .tuple _, v => .error (.decodeValue "Tuple" v)
  | _ + 1, .enum8 labels, .str s =>
      if labels.any (fun p => p.1 = s) then .ok (.str s)
      else .error (.decodeValue "Enum8" (.str s))
  | _ + 1, .enum8 _, v => .error (.decodeValue "Enum8" v)

def fromJsonManyF : Nat → TypeDesc → List PyValue → Except ConvErr (List Native)
  | 0, _, _ => .error (.decodeValue "depth" .none)
  | _ + 1, _, [] => .ok []
  | f + 1, t, v :: vs => do
      let n ← fromJsonF f t v
      let ns ← fromJsonManyF f t vs
      .ok (n :: ns)

def fromJsonEachF : Nat → List TypeDesc → List PyValue → Except ConvErr (List Native)
  | 0, _, _ => .error (.decodeValue "depth" .none)
  | _ + 1, [], _ => .ok []
  | _ + 1, _, [] => .ok []
  | f + 1, t :: ts, v :: vs => do
      let n ← fromJsonF f t v
      let ns ← fromJsonEachF f ts vs
      .ok (n :: ns)
end

mutual
/-- Structural size of a descriptor (recursion-depth budget for `from_json`). -/
def descSize : TypeDesc → Nat
  | .string => 1
  | .uInt _ => 1
  | .nullable t => descSize t + 1
  | .array t => descSize t + 1
  | .tuple ts => descSizeL ts + 1
  | .enum8 _ => 1

def descSizeL : List TypeDesc → Nat
  | [] => 1
  | t :: ts => descSize t + descSizeL ts
end

mutual
/-- Structural size of a Python value (recursion-depth budget). -/
def pySize : PyValue → Nat
  | .list xs => pySizeL xs + 1
  | .dict fs => pySizeF fs + 1
  | _ => 1

def pySizeL : List PyValue → Nat
  | [] => 1
  | v :: vs => pySize v + pySizeL vs

def pySizeF : List (String × PyValue) → Nat
  | [] => 1
  | (_, v) :: fs => pySize v + pySizeF fs
end

/-- The `from_json` converter of a resolved type descriptor (parser.py line
51 stores `type_obj.from_json` as the column's converter). -/
def from_json (t : TypeDesc) (v : PyValue) : Except ConvErr Native :=
  fromJsonF (descSize t + pySize v) t v

/-- AST of a type declaration: a bare identifier, an identifier applied to
arguments, or a literal argument (signed integer, quoted string, or a
`label = ordinal` enum pair), as in the spec's grammar (§3, §6). -/
inductive Ast where
  | simple (name : String)
  | composite (name : String) (args : List Ast)
  | litInt (n : Int)
  | litStr (s : String)
  | litPair (label : String) (n : Int)

/-- Resolution/parse errors of the type-declaration pipeline. -/
inductive TypeErr where
  | syntaxErr
  | unknownType (name : String)
  | invalidArgs (name : String)
deriving DecidableEq

/-- A resolved constructor argument: a nested descriptor or a literal. -/
inductive RArg where
  | type (t : TypeDesc)
  | int (n : Int)
  | str (s : String)
  | pair (label : String) (n : Int)

/-- The type registry: name-indexed constructors (`self._types[name]` in
`TypeTransformer`), each validating its own argument list. -/
abbrev TypeRegistry := List (String × (List RArg → Except TypeErr TypeDesc))

mutual
/-- `TypeTransformer.transform` (parser.py lines 20-34): bottom-up,
left-to-right.  For a composite node all arguments are resolved first, then
the head identifier is looked up (`self._types[name](*types)`); for a simple
node the constructor is called with no arguments; an identifier absent from
the registry raises the unknown-type lookup error. -/
def resolveAst (types : TypeRegistry) : Ast → Except TypeErr RArg
  | .simple n =>
    match lookupLast types n with
    | some ctor => (ctor []).map RArg.type
    | none => .error (.unknownType n)
  | .composite n args => do
    let rs ← resolveList types args
    match lookupLast types n with
    | some ctor => (ctor rs).map RArg.type
    | none => .error (.unknownType n)
  | .litInt n => .ok (.int n)
  | .litStr s => .ok (.str s)
  | .litPair l n => .ok (.pair l n)

def resolveList (types : TypeRegistry) : List Ast → Except TypeErr (List RArg)
  | [] => .ok []
  | a :: rest => do
    let r ← resolveAst types a
    let rs ← resolveList types rest
    .ok (r :: rs)
end

mutual
/-- Does the declaration mention, at any nesting level, an identifier with no
registered constructor? -/
def hasUnknownName (types : TypeRegistry) : Ast → Bool
  | .simple n => (lookupLast types n).isNone
  | .composite n args => (lookupLast types n).isNone || hasUnknownList types args
  | _ => false

def hasUnknownList (types : TypeRegistry) : List Ast → Bool
  | [] => false
  | a :: rest => hasUnknownName types a || hasUnknownList types rest
end

def isIdentStart (c : Char) : Bool := c.isAlpha || c == '_'

def isIdentChar (c : Char) : Bool := c.isAlphanum || c == '_'

def isWs (c : Char) : Bool := c == ' ' || c == '\t' || c == '\n' || c == '\r'

def skipWs : List Char → List Char
  | [] => []
  | c :: cs => if isWs c then skipWs cs else c :: cs

def takeWhileIdent : List Char → List Char × List Char
  | [] => ([], [])
  | c :: cs =>
    if isIdentChar c then
      let (a, b) := takeWhileIdent cs
      (c :: a, b)
    else ([], c :: cs)

def takeIdent (cs : List Char) : Option (String × List Char) :=
  match cs with
  | c :: _ =>
    if isIdentStart c then
      let (a, b) := takeWhileIdent cs
      some (String.mk a, b)
    else none
  | [] => none

def takeDigits : List Char → List Char × List Char
  | [] => ([], [])
  | c :: cs =>
    if c.isDigit then
      let (a, b) := takeDigits cs
      (c :: a, b)
    else ([], c :: cs)

def digitsToNat (ds : List Char) : Nat :=
  ds.foldl (fun acc c => acc * 10 + (c.toNat - 48)) 0

def takeInt (cs : List Char) : Option (Int × List Char) :=
  match cs with
  | '-' :: rest =>
    match takeDigits rest with
    | ([], _) => none
    | (ds, rem) => some (-(digitsToNat ds : Int), rem)
  | _ =>
    match takeDigits cs with
    | ([], _) => none
    | (ds, rem) => some ((digitsToNat ds : Int), rem)

/-- Body of a quoted string after the opening quote, with the escape
sequences of the spec's grammar (backslash, quote, tab, newline, null). -/
def takeStringBody : List Char → Option (List Char × List Char)
  | [] => none
  | '\\' :: e :: rest => do
    let c ←
      match e with
      | '\\' => some '\\'
      | '\'' => some '\''
      | 't' => some '\t'
      | 'n' => some '\n'
      | '0' => some (Char.ofNat 0)
      | _ => none
    let (body, rem) ← takeStringBody rest
    some (c :: body, rem)
  | '\'' :: rest => some ([], rest)
  | c :: rest => do
    let (body, rem) ← takeStringBody rest
    some (c :: body, rem)

mutual
/-- Modelled from the spec: the grammar of `type.lark` (the grammar file is
not among the sources; §4.1/§6 give the EBNF: `type_expr := IDENT ("(" arg
("," arg)* ")")?`).  Recursive descent over the character list with fuel;
whitespace between tokens is insignificant. -/
def pTypeExpr : Nat → List Char → Option (Ast × List Char)
  | 0, _ => none
  | fuel + 1, cs => do
    let (name, rest) ← takeIdent cs
    match skipWs rest with
    | '(' :: rest2 => do
      let (args, rest3) ← pArgs fuel rest2
      some (.composite name args, rest3)
    | _ => some (.simple name, rest)

def pArgs : Nat → List Char → Option (List Ast × List Char)
  | 0, _ => none
  | fuel + 1, cs => do
    let (a, rest) ← pArg fuel (skipWs cs)
    match skipWs rest with
    | ',' :: rest2 => do
      let (as, rest3) ← pArgs fuel (skipWs rest2)
      some (a :: as, rest3)
    | ')' :: rest2 => some ([a], rest2)
    | _ => none

def pArg : Nat → List Char → Option (Ast × List Char)
  | 0, _ => none
  | fuel + 1, cs =>
    match cs with
    | '\'' :: rest => do
      let (body, rest2) ← takeStringBody rest
      match skipWs rest2 with
      | '=' :: rest3 => do
        let (n, rest4) ← takeInt (skipWs rest3)
        some (.litPair (String.mk body) n, rest4)
      | _ => some (.litStr (String.mk body), rest2)
    | c :: _ =>
      if c == '-' || c.isDigit then do
        let (n, rest) ← takeInt cs
        some (.litInt n, rest)
      else pTypeExpr fuel cs
    | [] => none
end

/-- `type_parser.parse` (parser.py line 37): parse a whole declaration
string into an AST, or fail with a syntax error. -/
def parseDecl (s : String) : Except TypeErr Ast :=
  match pTypeExpr (3 * s.length + 3) (skipWs s.toList) with
  | some (a, rest) => if skipWs rest = [] then .ok a else .error .syntaxErr
  | none => .error .syntaxErr

/-- `parse_type` (parser.py lines 36-38): parse the declaration, then run
the transformer against the registry. -/
def parse_type (types : TypeRegistry) (type_str : String) : Except TypeErr TypeDesc :=
  match parseDecl type_str with
  | .error e => .error e
  | .ok tree =>
    match resolveAst types tree with
    | .ok (.type d) => .ok d
    | .ok _ => .error .syntaxErr
    | .error e => .error e

/-- Modelled from the spec: registry constructors validating their own
argument arity and kinds (§4.2); `Enum8` additionally rejects duplicate
ordinals. -/
def ctorSimple (name : String) (d : TypeDesc) : List RArg → Except TypeErr TypeDesc :=
  fun args =>
    match args with
    | [] => .ok d
    | _ => .error (.invalidArgs name)

def ctorNullable : List RArg → Except TypeErr TypeDesc :=
  fun args =>
    match args with
    | [.type t] => .ok (.nullable t)
    | _ => .error (.invalidArgs "Nullable")

def ctorArray : List RArg → Except TypeErr TypeDesc :=
  fun args =>
    match args with
    | [.type t] => .ok (.array t)
    | _ => .error (.invalidArgs "Array")

def asType : RArg → Option TypeDesc
  | .type t => some t
  | _ => none

def asPair : RArg → Option (String × Int)
  | .pair l n => some (l, n)
  | _ => none

def ctorTuple : List RArg → Except TypeErr TypeDesc :=
  fun args =>
    match args.mapM asType with
    | some ts => .ok (.tuple ts)
    | none => .error (.invalidArgs "Tuple")

def ctorEnum8 : List RArg → Except TypeErr TypeDesc :=
  fun args =>
    match args.mapM asPair with
    | some ps =>
      if (ps.map Prod.snd).Nodup then .ok (.enum8 ps)
      else .error (.invalidArgs "Enum8")
    | none => .error (.invalidArgs "Enum8")

/-- Modelled from the spec: a concrete registry holding a representative
subset of the type families of §4.3, used by concrete witnesses. -/
def defaultTypes : TypeRegistry := [
  ("String", ctorSimple "String" .string),
  ("UInt8", ctorSimple "UInt8" (.uInt 8)),
  ("UInt16", ctorSimple "UInt16" (.uInt 16)),
  ("UInt32", ctorSimple "UInt32" (.uInt 32)),
  ("UInt64", ctorSimple "UInt64" (.uInt 64)),
  ("Nullable", ctorNullable),
  ("Array", ctorArray),
  ("Tuple", ctorTuple),
  ("Enum8", ctorEnum8)
]

/-- Modelled from the spec: one decoded result row (`aiochsa/record.py` is
not among the sources; §3 describes the Record as an ordered, name-keyed
tuple of decoded values).  Only the ordered names/values structure is
needed here. -/
structure Record where
  names : List PyValue
  values : List Native

/-- A converter, as stored in the `converters` list of parser.py line 51. -/
abbrev Conv := PyValue → Except ConvErr Native

/-- Errors the decode call can raise: envelope/row shape errors (Python
KeyError/TypeError), type-resolution errors, and conversion errors. -/
inductive Err where
  | badEnvelope
  | badColumn
  | badRow
  | typeErr (e : TypeErr)
  | convErr (e : ConvErr)

/-- Observable events of one `parse_json_compact` invocation:
`readChunk` — one chunk of the body arrives from the wire inside
`await content.read()`; `parsedJson` — `json.loads` returns;
`resolvedColumn i` — `parse_type` returned column `i`'s descriptor;
`converted r c v` — the converter of column `c` was invoked on value `v` of
row `r`; `yielded r` — the `Record` of row `r` was handed to the consumer. -/
inductive Ev where
  | readChunk
  | parsedJson
  | resolvedColumn (i : Nat)
  | converted (row col : Nat) (arg : PyValue)
  | yielded (row : Nat)

/-- One iteration of the metadata loop of parser.py lines 48-51: read the
column's name (`column['name']`), read its type declaration
(`column['type']`) and resolve it through `parse_type`. -/
def resolveColumn (types : TypeRegistry) (col : PyValue) : Except Err (PyValue × TypeDesc) :=
  match pyGet col "name" with
  | none => .error .badColumn
  | some nm =>
    match pyGet col "type" with
    | some (.str tstr) =>
      match parse_type types tstr with
      | .ok d => .ok (nm, d)
      | .error e => .error (.typeErr e)
    | _ => .error .badColumn

/-- The metadata loop of parser.py lines 46-51: for each column, read its
name, read and resolve its type declaration, and collect
`type_obj.from_json` as the column's converter; the first failure aborts. -/
def resolveColumns (types : TypeRegistry) (meta : List PyValue) (i : Nat) :
    List Ev × Except Err (List PyValue × List Conv) :=
  match meta with
  | [] => ([], .ok ([], []))
  | col :: rest =>
    match resolveColumn types col with
    | .ok (nm, d) =>
      let out := resolveColumns types rest (i + 1)
      (Ev.resolvedColumn i :: out.1,
       out.2.map (fun p => (nm :: p.1, from_json d :: p.2)))
    | .error e => ([], .error e)

/-- The list comprehension of parser.py lines 56-59: convert the values of
one row positionally against the zipped converter list, left to right; a
converter failure aborts the comprehension at that point. -/
def convertRowEv (r : Nat) (convs : List Conv) (row : List PyValue) (c : Nat) :
    List Ev × Except ConvErr (List Native) :=
  match convs, row with
  | conv :: cs, v :: vs =>
    match conv v with
    | .ok n =>
      let out := convertRowEv r cs vs (c + 1)
      (Ev.converted r c v :: out.1, out.2.map (fun ns => n :: ns))
    | .error e => ([Ev.converted r c v], .error e)
  | _, _ => ([], .ok [])

/-- Pure result of converting one row (`[converter(value) for converter,
value in zip(converters, row)]`): the event-free projection of
`convertRowEv`. -/
def decodeRow (convs : List Conv) (row : List PyValue) : Except ConvErr (List Native) :=
  match convs, row with
  | conv :: cs, v :: vs =>
    match conv v with
    | .ok n => (decodeRow cs vs).map (fun ns => n :: ns)
    | .error e => .error e
  | _, _ => .ok []

/-- The row loop of parser.py lines 53-60, driven by the consumer: `k` is
the number of records still requested.  Each iteration converts one row and
yields its `Record`; a conversion failure raises out of the generator,
after which the records already yielded stay with the consumer. -/
def rowsLoop (names : List PyValue) (convs : List Conv) (rows : List PyValue)
    (k r : Nat) : List Ev × List Record × Option Err :=
  match k, rows with
  | 0, _ => ([], [], none)
  | _ + 1, [] => ([], [], none)
  | k' + 1, PyValue.list vs :: rest =>
    match convertRowEv r convs vs 0 with
    | (evs, .ok vals) =>
      let out := rowsLoop names convs rest k' (r + 1)
      (evs ++ Ev.yielded r :: out.1, Record.mk names vals :: out.2.1, out.2.2)
    | (evs, .error e) => (evs, [], some (Err.convErr e))
  | _ + 1, _ :: _ => ([], [], some Err.badRow)

/-- Body of the generator after `json.loads`: access `response['meta']`, run
the metadata loop, access `response['data']`, run the row loop. -/
def runBody (types : TypeRegistry) (response : PyValue) (k : Nat) :
    List Ev × List Record × Option Err :=
  match pyGet response "meta" with
  | some (.list meta) =>
    match resolveColumns types meta 0 with
    | (evs, .error e) => (evs, [], some e)
    | (evs, .ok (names, convs)) =>
      match pyGet response "data" with
      | some (.list rows) =>
        let out := rowsLoop names convs rows k 0
        (evs ++ out.1, out.2.1, out.2.2)
      | some _ => (evs, [], some .badEnvelope)
      | none => (evs, [], some .badEnvelope)
  | some _ => ([], [], some .badEnvelope)
  | none => ([], [], some .badEnvelope)

/-- The response body handed to the decoder: the document together with the
number of chunks in which the wire delivers it (`content` is an aiohttp
`StreamReader`; `await content.read()` consumes every chunk up to EOF
before returning the whole body). -/
structure StreamContent where
  chunks : Nat
  doc : Json

/-- `parse_json_compact` (parser.py lines 41-60) as observed by a consumer
requesting `k` records from the async generator.  With `k = 0` the
generator body never starts (Python runs no code of an async generator
before the first `__anext__`); otherwise the whole body is read and parsed,
the columns are resolved, and rows are converted on demand. -/
def parse_json_compact (types : TypeRegistry) (content : StreamContent) (k : Nat) :
    List Ev × List Record × Option Err :=
  match k with
  | 0 => ([], [], none)
  | k' + 1 =>
    let out := runBody types (jsonLoads content.doc) (k' + 1)
    (List.replicate content.chunks Ev.readChunk ++ Ev.parsedJson :: out.1,
     out.2.1, out.2.2)

/-- JSON object for one column of the envelope's `meta` list. -/
def mkColumn (p : String × String) : Json :=
  .obj [("name", .str p.1), ("type", .str p.2)]

/-- A well-shaped response envelope `{"meta": [...], "data": [...]}` built
from `(name, type-declaration)` pairs and raw rows. -/
def mkEnvelope (cols : List (String × String)) (rows : List (List Json)) : Json :=
  .obj [("meta", .arr (cols.map mkColumn)), ("data", .arr (rows.map Json.arr))]

/-- The loaded metadata list of `mkEnvelope`. -/
def metaPy (cols : List (String × String)) : List PyValue :=
  cols.map (fun p => PyValue.dict [("name", .str p.1), ("type", .str p.2)])

/-- The `names` list collected by the metadata loop. -/
def metaNames (cols : List (String × String)) : List PyValue :=
  cols.map (fun p => PyValue.str p.1)

/-- The column-aligned converter list for resolved descriptors. -/
def colConvs (descs : List TypeDesc) : List Conv :=
  descs.map (fun d => from_json d)

/-- Does the event record the resolution of column `i`? -/
def isResolved (i : Nat) : Ev → Bool
  | .resolvedColumn j => j == i
  | _ => false

theorem errBind {α β γ : Type} (e : γ) (f : α → Except γ β) :
    (Except.error e >>= f) = Except.error e := rfl

theorem okBind {α β γ : Type} (a : α) (f : α → Except γ β) :
    (Except.ok a >>= f : Except γ β) = f a := rfl

theorem jsonLoadsL_eq_map (xs : List Json) : jsonLoadsL xs = xs.map jsonLoads := by
  induction xs with
  | nil => rfl
  | cons x xs ih => simp [jsonLoadsL, ih]

theorem lookupLast_loads (fs : List (String × Json)) (s : String) :
    lookupLast (jsonLoadsF fs) s = (lookupLast fs s).map jsonLoads := by
  induction fs with
  | nil => rfl
  | cons p fs ih =>
    obtain ⟨k, v⟩ := p
    simp only [jsonLoadsF, lookupLast, ih]
    cases lookupLast fs s with
    | some r => simp
    | none =>
      simp only [Option.map_none']
      split <;> simp

theorem getL_loads (xs : List Json) (n : Nat) :
    (jsonLoadsL xs).get? n = (xs.get? n).map jsonLoads := by
  induction xs generalizing n with
  | nil => simp [jsonLoadsL]
  | cons x xs ih =>
    cases n with
    | zero => simp [jsonLoadsL]
    | succ m =>
      simp only [jsonLoadsL, List.get?_cons_succ]
      exact ih m

theorem get?_loads (p : List Step) : ∀ (j j' : Json), Json.get? j p = some j' →
    PyValue.get? (jsonLoads j) p = some (jsonLoads j') := by
  induction p with
  | nil =>
    intro j j' h
    simp only [Json.get?, Option.some.injEq] at h
    subst h
    rfl
  | cons st p ih =>
    intro j j' h
    cases st with
    | idx n =>
      cases j with
      | arr xs =>
        simp only [Json.get?] at h
        cases hx : xs.get? n with
        | none => rw [hx] at h; cases h
        | some x =>
          rw [hx] at h
          have hrec := ih x j' h
          simp only [jsonLoads, PyValue.get?]
          rw [getL_loads, hx]
          exact hrec
      | null => cases h
      | bool b => cases h
      | intLit m => cases h
      | floatLit t => cases h
      | str s => cases h
      | obj fs => cases h
    | key s =>
      cases j with
      | obj fs =>
        simp only [Json.get?] at h
        cases hx : lookupLast fs s with
        | none => rw [hx] at h; cases h
        | some x =>
          rw [hx] at h
          have hrec := ih x j' h
          simp only [jsonLoads, PyValue.get?]
          rw [lookupLast_loads, hx]
          exact hrec
      | null => cases h
      | bool b => cases h
      | intLit m => cases h
      | floatLit t => cases h
      | str t => cases h
      | arr xs => cases h

theorem convertRowEv_res (r : Nat) (convs : List Conv) :
    ∀ (row : List PyValue) (c : Nat), (convertRowEv r convs row c).2 = decodeRow convs row := by
  induction convs with
  | nil => intro row c; cases row <;> rfl
  | cons conv cs ih =>
    intro row c
    cases row with
    | nil => rfl
    | cons v vs =>
      simp only [convertRowEv, decodeRow]
      cases conv v with
      | ok n => simp [ih vs (c + 1)]
      | error e => rfl

theorem decodeRow_len (convs : List Conv) :
    ∀ (row : List PyValue) (vals : List Native), decodeRow convs row = .ok vals →
      vals.length = min convs.length row.length := by
  induction convs with
  | nil =>
    intro row vals h
    cases row <;> simp only [decodeRow, Except.ok.injEq] at h <;> subst h <;> simp
  | cons conv cs ih =>
    intro row vals h
    cases row with
    | nil =>
      simp only [decodeRow, Except.ok.injEq] at h
      subst h
      simp
    | cons v vs =>
      simp only [decodeRow] at h
      cases hc : conv v with
      | error e => rw [hc] at h; cases h
      | ok n =>
        rw [hc] at h
        cases hd : decodeRow cs vs with
        | error e => rw [hd] at h; cases h
        | ok ns =>
          rw [hd] at h
          simp only [Except.map, Except.ok.injEq] at h
          subst h
          simp [ih vs ns hd, Nat.succ_min_succ]

theorem convertRowEv_events (r : Nat) (convs : List Conv) :
    ∀ (row : List PyValue) (c : Nat) (e : Ev), e ∈ (convertRowEv r convs row c).1 →
      ∃ c' v, e = Ev.converted r c' v := by
  induction convs with
  | nil => intro row c e he; cases row <;> simp [convertRowEv] at he
  | cons conv cs ih =>
    intro row c e he
    cases row with
    | nil => simp [convertRowEv] at he
    | cons v vs =>
      simp only [convertRowEv] at he
      cases hc : conv v with
      | ok n =>
        rw [hc] at he
        simp only [List.mem_cons] at he
        rcases he with he | he
        · exact ⟨c, v, he⟩
        · exact ih vs (c + 1) e he
      | error e2 =>
        rw [hc] at he
        simp only [List.mem_singleton] at he
        exact ⟨c, v, he⟩

theorem convertRowEv_mem (r : Nat) (convs : List Conv) :
    ∀ (row : List PyValue) (c r' c' : Nat) (v : PyValue),
      Ev.converted r' c' v ∈ (convertRowEv r convs row c).1 →
      r' = r ∧ ∃ j, c' = c + j ∧ row.get? j = some v := by
  induction convs with
  | nil => intro row c r' c' v he; cases row <;> simp [convertRowEv] at he
  | cons conv cs ih =>
    intro row c r' c' v he
    cases row with
    | nil => simp [convertRowEv] at he
    | cons v0 vs =>
      simp only [convertRowEv] at he
      cases hc : conv v0 with
      | ok n =>
        rw [hc] at he
        simp only [List.mem_cons] at he
        rcases he with he | he
        · injection he with h1 h2 h3
          subst h1; subst h2; subst h3
          exact ⟨rfl, 0, by simp⟩
        · obtain ⟨hr, j, hc', hg⟩ := ih vs (c + 1) r' c' v he
          exact ⟨hr, j + 1, by omega, by simpa using hg⟩
      | error e2 =>
        rw [hc] at he
        simp only [List.mem_singleton] at he
        injection he with h1 h2 h3
        subst h1; subst h2; subst h3
        exact ⟨rfl, 0, by simp⟩

theorem rowsLoop_events (names : List PyValue) (convs : List Conv) :
    ∀ (rows : List PyValue) (k r0 : Nat) (e : Ev), e ∈ (rowsLoop names convs rows k r0).1 →
      (∃ r c v, e = Ev.converted r c v ∧ r0 ≤ r ∧ r < r0 + k) ∨
      (∃ r, e = Ev.yielded r ∧ r0 ≤ r ∧ r < r0 + k) := by
  intro rows
  induction rows with
  | nil => intro k r0 e he; cases k <;> simp [rowsLoop] at he
  | cons row rest ih =>
    intro k r0 e he
    cases k with
    | zero => simp [rowsLoop] at he
    | succ k' =>
      cases row with
      | list vs =>
        simp only [rowsLoop] at he
        rcases hce : convertRowEv r0 convs vs 0 with ⟨evs, res⟩
        rw [hce] at he
        have hevs : evs = (convertRowEv r0 convs vs 0).1 := by rw [hce]
        cases res with
        | ok vals =>
          simp only [List.mem_append, List.mem_cons] at he
          rcases he with he | he | he
          · obtain ⟨c', v, hev⟩ := convertRowEv_events r0 convs vs 0 e (hevs ▸ he)
            exact Or.inl ⟨r0, c', v, hev, Nat.le_refl _, by omega⟩
          · exact Or.inr ⟨r0, he, Nat.le_refl _, by omega⟩
          · rcases ih k' (r0 + 1) e he with ⟨r, c, v, hev, h1, h2⟩ | ⟨r, hev, h1, h2⟩
            · exact Or.inl ⟨r, c, v, hev, by omega, by omega⟩
            · exact Or.inr ⟨r, hev, by omega, by omega⟩
        | error e2 =>
          obtain ⟨c', v, hev⟩ := convertRowEv_events r0 convs vs 0 e (hevs ▸ he)
          exact Or.inl ⟨r0, c', v, hev, Nat.le_refl _, by omega⟩
      | none => simp [rowsLoop] at he
      | bool b => simp [rowsLoop] at he
      | int n => simp [rowsLoop] at he
      | str s => simp [rowsLoop] at he
      | dict fs => simp [rowsLoop] at he

theorem rowsLoop_mem (names : List PyValue) (convs : List Conv) :
    ∀ (rows : List PyValue) (k r0 r c : Nat) (v : PyValue),
      Ev.converted r c v ∈ (rowsLoop names convs rows k r0).1 →
      ∃ j vs, r = r0 + j ∧ rows.get? j = some (PyValue.list vs) ∧ vs.get? c = some v := by
  intro rows
  induction rows with
  | nil => intro k r0 r c v he; cases k <;> simp [rowsLoop] at he
  | cons row rest ih =>
    intro k r0 r c v he
    cases k with
    | zero => simp [rowsLoop] at he
    | succ k' =>
      cases row with
      | list vs0 =>
        simp only [rowsLoop] at he
        rcases hce : convertRowEv r0 convs vs0 0 with ⟨evs, res⟩
        rw [hce] at he
        have hevs : evs = (convertRowEv r0 convs vs0 0).1 := by rw [hce]
        cases res with
        | ok vals =>
          simp only [List.mem_append, List.mem_cons] at he
          rcases he with he | he | he
          · obtain ⟨hr, j, hcj, hg⟩ := convertRowEv_mem r0 convs vs0 0 r c v (hevs ▸ he)
            subst hr
            exact ⟨0, vs0, by omega, by simp, by rw [hcj]; simpa using hg⟩
          · cases he
          · obtain ⟨j, vs, hr, hg, hgc⟩ := ih k' (r0 + 1) r c v he
            exact ⟨j + 1, vs, by omega, by simpa using hg, hgc⟩
        | error e2 =>
          obtain ⟨hr, j, hcj, hg⟩ := convertRowEv_mem r0 convs vs0 0 r c v (hevs ▸ he)
          subst hr
          exact ⟨0, vs0, by omega, by simp, by rw [hcj]; simpa using hg⟩
      | none => simp [rowsLoop] at he
      | bool b => simp [rowsLoop] at he
      | int n => simp [rowsLoop] at he
      | str s => simp [rowsLoop] at he
      | dict fs => simp [rowsLoop] at he

theorem rowsLoop_ok (names : List PyValue) (convs : List Conv) :
    ∀ (rows : List (List PyValue)) (valss : List (List Native)) (k r : Nat),
      rows.map (decodeRow convs) = valss.map Except.ok →
      rows.length ≤ k →
      (rowsLoop names convs (rows.map PyValue.list) k r).2
        = (valss.map (fun vals => Record.mk names vals), none) := by
  intro rows
  induction rows with
  | nil =>
    intro valss k r h hk
    cases valss with
    | nil => cases k <;> rfl
    | cons vals valss' => cases h
  | cons row rest ih =>
    intro valss k r h hk
    cases valss with
    | nil => cases h
    | cons vals valss' =>
      simp only [List.map] at h
      injection h with h1 h2
      cases k with
      | zero => simp at hk
      | succ k' =>
        simp only [List.map, rowsLoop]
        have hres := convertRowEv_res r convs row 0
        rcases hce : convertRowEv r convs row 0 with ⟨evs, res⟩
        rw [hce] at hres
        rw [h1] at hres
        simp only at hres
        subst hres
        have hih := ih valss' k' (r + 1) h2 (by simpa using hk)
        simp only [List.length_cons] at hk
        rw [hih]

theorem rowsLoop_fail (names : List PyValue) (convs : List Conv) :
    ∀ (good : List (List PyValue)) (valss : List (List Native)) (bad : List PyValue)
      (more : List PyValue) (k r : Nat) (e : ConvErr),
      good.map (decodeRow convs) = valss.map Except.ok →
      decodeRow convs bad = .error e →
      good.length < k →
      (rowsLoop names convs (good.map PyValue.list ++ PyValue.list bad :: more) k r).2
          = (valss.map (fun vals => Record.mk names vals), some (Err.convErr e))
      ∧ (∀ r', Ev.yielded r'
            ∈ (rowsLoop names convs (good.map PyValue.list ++ PyValue.list bad :: more) k r).1 →
          r' < r + good.length)
      ∧ (∀ r' c v, Ev.converted r' c v
            ∈ (rowsLoop names convs (good.map PyValue.list ++ PyValue.list bad :: more) k r).1 →
          r' < r + good.length + 1) := by
  intro good
  induction good with
  | nil =>
    intro valss bad more k r e h hbad hk
    cases valss with
    | cons vals valss' => cases h
    | nil =>
      cases k with
      | zero => omega
      | succ k' =>
        simp only [List.map, List.nil_append, rowsLoop]
        have hres := convertRowEv_res r convs bad 0
        rcases hce : convertRowEv r convs bad 0 with ⟨evs, res⟩
        rw [hce] at hres
        rw [hbad] at hres
        simp only at hres
        subst hres
        refine ⟨rfl, ?_, ?_⟩
        · intro r' hr'
          have hevs : evs = (convertRowEv r convs bad 0).1 := by rw [hce]
          obtain ⟨c', v, hev⟩ := convertRowEv_events r convs bad 0 _ (hevs ▸ hr')
          cases hev
        · intro r' c v hr'
          have hevs : evs = (convertRowEv r convs bad 0).1 := by rw [hce]
          obtain ⟨hr, _⟩ := convertRowEv_mem r convs bad 0 r' c v (hevs ▸ hr')
          subst hr
          simp
  | cons row rest ih =>
    intro valss bad more k r e h hbad hk
    cases valss with
    | nil => cases h
    | cons vals valss' =>
      simp only [List.map] at h
      injection h with h1 h2
      cases k with
      | zero => omega
      | succ k' =>
        simp only [List.map, List.cons_append, rowsLoop, List.append_eq]
        have hres := convertRowEv_res r convs row 0
        rcases hce : convertRowEv r convs row 0 with ⟨evs, res⟩
        rw [hce] at hres
        rw [h1] at hres
        simp only at hres
        subst hres
        obtain ⟨hout, htr, hconv⟩ := ih valss' bad more k' (r + 1) e h2 hbad (by simpa using hk)
        refine ⟨?_, ?_, ?_⟩
        · rw [hout]
        · intro r' hr'
          simp only [List.mem_append, List.mem_cons] at hr'
          rcases hr' with hr' | hr' | hr'
          · have hevs : evs = (convertRowEv r convs row 0).1 := by rw [hce]
            obtain ⟨c', v, hev⟩ := convertRowEv_events r convs row 0 _ (hevs ▸ hr')
            cases hev
          · injection hr' with hr'
            simp only [List.length_cons]
            omega
          · have := htr r' hr'
            simp only [List.length_cons]
            omega
        · intro r' c v hr'
          simp only [List.mem_append, List.mem_cons] at hr'
          rcases hr' with hr' | hr' | hr'
          · have hevs : evs = (convertRowEv r convs row 0).1 := by rw [hce]
            obtain ⟨hr, _⟩ := convertRowEv_mem r convs row 0 r' c v (hevs ▸ hr')
            subst hr
            simp only [List.length_cons]
            omega
          · exact Ev.noConfusion hr'
          · have := hconv r' c v hr'
            simp only [List.length_cons]
            omega

theorem rowsLoop_records (names : List PyValue) (convs : List Conv) :
    ∀ (rows : List PyValue) (k r i : Nat),
      i < (rowsLoop names convs rows k r).2.1.length →
      ∃ vs vals, rows.get? i = some (PyValue.list vs) ∧ decodeRow convs vs = .ok vals ∧
        (rowsLoop names convs rows k r).2.1.get? i = some (Record.mk names vals) := by
  intro rows
  induction rows with
  | nil => intro k r i hi; cases k <;> simp [rowsLoop] at hi
  | cons row rest ih =>
    intro k r i hi
    cases k with
    | zero => simp [rowsLoop] at hi
    | succ k' =>
      cases row with
      | list vs0 =>
        simp only [rowsLoop] at hi ⊢
        have hres := convertRowEv_res r convs vs0 0
        rcases hce : convertRowEv r convs vs0 0 with ⟨evs, res⟩
        rw [hce] at hres hi
        simp only at hres
        cases res with
        | ok vals0 =>
          cases i with
          | zero => exact ⟨vs0, vals0, by simp, hres.symm, by simp⟩
          | succ i' =>
            simp only [List.length_cons, Nat.succ_lt_succ_iff] at hi
            obtain ⟨vs, vals, hg, hdec, hgr⟩ := ih k' (r + 1) i' hi
            exact ⟨vs, vals, by simpa using hg, hdec, by simpa using hgr⟩
        | error e2 => simp at hi
      | none => simp [rowsLoop] at hi
      | bool b => simp [rowsLoop] at hi
      | int n => simp [rowsLoop] at hi
      | str s => simp [rowsLoop] at hi
      | dict fs => simp [rowsLoop] at hi

theorem rowsLoop_err_kind (names : List PyValue) (convs : List Conv) :
    ∀ (rows : List PyValue) (k r : Nat) (er : Err),
      (rowsLoop names convs rows k r).2.2 = some er →
      er = Err.badRow ∨ ∃ ce, er = Err.convErr ce := by
  intro rows
  induction rows with
  | nil => intro k r er h; cases k <;> cases h
  | cons row rest ih =>
    intro k r er h
    cases k with
    | zero => cases h
    | succ k' =>
      cases row with
      | list vs =>
        simp only [rowsLoop] at h
        rcases hce : convertRowEv r convs vs 0 with ⟨evs, res⟩
        rw [hce] at h
        cases res with
        | ok vals => exact ih k' (r + 1) er h
        | error e2 =>
          simp only [Option.some.injEq] at h
          exact Or.inr ⟨e2, h.symm⟩
      | none => simp only [rowsLoop, Option.some.injEq] at h; exact Or.inl h.symm
      | bool b => simp only [rowsLoop, Option.some.injEq] at h; exact Or.inl h.symm
      | int n => simp only [rowsLoop, Option.some.injEq] at h; exact Or.inl h.symm
      | str s => simp only [rowsLoop, Option.some.injEq] at h; exact Or.inl h.symm
      | dict fs => simp only [rowsLoop, Option.some.injEq] at h; exact Or.inl h.symm

theorem pyGet_name (nm tp : PyValue) :
    pyGet (PyValue.dict [("name", nm), ("type", tp)]) "name" = some nm := rfl

theorem pyGet_type (nm tp : PyValue) :
    pyGet (PyValue.dict [("name", nm), ("type", tp)]) "type" = some tp := rfl

theorem pyGet_meta (a b : PyValue) :
    pyGet (PyValue.dict [("meta", a), ("data", b)]) "meta" = some a := rfl

theorem pyGet_data (a b : PyValue) :
    pyGet (PyValue.dict [("meta", a), ("data", b)]) "data" = some b := rfl

theorem resolveColumn_dict_ok (types : TypeRegistry) (nm : PyValue) (ts : String)
    (d : TypeDesc) (hp : parse_type types ts = .ok d) :
    resolveColumn types (PyValue.dict [("name", nm), ("type", .str ts)]) = .ok (nm, d) := by
  simp only [resolveColumn, pyGet_name, pyGet_type, hp]

theorem resolveColumn_dict_err (types : TypeRegistry) (nm : PyValue) (ts : String)
    (e : TypeErr) (hp : parse_type types ts = .error e) :
    resolveColumn types (PyValue.dict [("name", nm), ("type", .str ts)])
      = .error (.typeErr e) := by
  simp only [resolveColumn, pyGet_name, pyGet_type, hp]

theorem resolveColumn_err_kind (types : TypeRegistry) (col : PyValue) (er : Err)
    (h : resolveColumn types col = .error er) :
    er = Err.badColumn ∨ ∃ te, er = Err.typeErr te := by
  cases hn : pyGet col "name" with
  | none =>
    simp only [resolveColumn, hn, Except.error.injEq] at h
    exact Or.inl h.symm
  | some nm =>
    cases ht : pyGet col "type" with
    | none =>
      simp only [resolveColumn, hn, ht, Except.error.injEq] at h
      exact Or.inl h.symm
    | some tv =>
      cases tv with
      | str tstr =>
        cases hp : parse_type types tstr with
        | ok d => simp only [resolveColumn, hn, ht, hp] at h; cases h
        | error e2 =>
          simp only [resolveColumn, hn, ht, hp, Except.error.injEq] at h
          exact Or.inr ⟨e2, h.symm⟩
      | none =>
        simp only [resolveColumn, hn, ht, Except.error.injEq] at h
        exact Or.inl h.symm
      | bool b =>
        simp only [resolveColumn, hn, ht, Except.error.injEq] at h
        exact Or.inl h.symm
      | int n =>
        simp only [resolveColumn, hn, ht, Except.error.injEq] at h
        exact Or.inl h.symm
      | list xs =>
        simp only [resolveColumn, hn, ht, Except.error.injEq] at h
        exact Or.inl h.symm
      | dict fs =>
        simp only [resolveColumn, hn, ht, Except.error.injEq] at h
        exact Or.inl h.symm

theorem resolveColumns_events (types : TypeRegistry) :
    ∀ (meta : List PyValue) (i : Nat) (e : Ev), e ∈ (resolveColumns types meta i).1 →
      ∃ j, e = Ev.resolvedColumn j := by
  intro meta
  induction meta with
  | nil => intro i e he; simp [resolveColumns] at he
  | cons col rest ih =>
    intro i e he
    cases hc : resolveColumn types col with
    | ok pr =>
      obtain ⟨nm, d⟩ := pr
      simp only [resolveColumns, hc, List.mem_cons] at he
      rcases he with he | he
      · exact ⟨i, he⟩
      · exact ih (i + 1) e he
    | error e2 => simp [resolveColumns, hc] at he

theorem resolveColumns_err_kind (types : TypeRegistry) :
    ∀ (meta : List PyValue) (i : Nat) (er : Err),
      (resolveColumns types meta i).2 = .error er →
      er = Err.badColumn ∨ ∃ te, er = Err.typeErr te := by
  intro meta
  induction meta with
  | nil => intro i er h; cases h
  | cons col rest ih =>
    intro i er h
    cases hc : resolveColumn types col with
    | ok pr =>
      obtain ⟨nm, d⟩ := pr
      simp only [resolveColumns, hc] at h
      cases hrest : (resolveColumns types rest (i + 1)).2 with
      | ok pr2 => rw [hrest] at h; simp [Except.map] at h
      | error er2 =>
        rw [hrest] at h
        simp only [Except.map, Except.error.injEq] at h
        subst h
        exact ih (i + 1) er2 hrest
    | error e2 =>
      simp only [resolveColumns, hc, Except.error.injEq] at h
      subst h
      exact resolveColumn_err_kind types col e2 hc

theorem resolveColumns_ok (types : TypeRegistry) :
    ∀ (cols : List (String × String)) (descs : List TypeDesc) (i : Nat),
      cols.map (fun p => parse_type types p.2) = descs.map Except.ok →
      resolveColumns types (metaPy cols) i
        = ((List.range' i cols.length).map Ev.resolvedColumn,
           .ok (metaNames cols, colConvs descs)) := by
  intro cols
  induction cols with
  | nil =>
    intro descs i h
    cases descs with
    | nil => rfl
    | cons d ds => cases h
  | cons p rest ih =>
    intro descs i h
    cases descs with
    | nil => cases h
    | cons d ds =>
      simp only [List.map] at h
      injection h with h1 h2
      have hmp : metaPy (p :: rest)
          = PyValue.dict [("name", .str p.1), ("type", .str p.2)] :: metaPy rest := rfl
      rw [hmp]
      have hc := resolveColumn_dict_ok types (.str p.1) p.2 d h1
      simp only [resolveColumns, hc, ih ds (i + 1) h2, Except.map, List.length_cons,
        List.range'_succ, List.map_cons]
      rfl

theorem resolveColumns_fail (types : TypeRegistry) :
    ∀ (cols : List (String × String)) (i : Nat),
      (∃ s, s ∈ cols.map Prod.snd ∧ ∃ e, parse_type types s = Except.error e) →
      ∃ te, (resolveColumns types (metaPy cols) i).2 = .error (Err.typeErr te) := by
  intro cols
  induction cols with
  | nil =>
    intro i h
    obtain ⟨s, hs, _⟩ := h
    simp at hs
  | cons p rest ih =>
    intro i h
    have hmp : metaPy (p :: rest)
        = PyValue.dict [("name", .str p.1), ("type", .str p.2)] :: metaPy rest := rfl
    rw [hmp]
    cases hp : parse_type types p.2 with
    | error e =>
      have hc := resolveColumn_dict_err types (.str p.1) p.2 e hp
      exact ⟨e, by simp only [resolveColumns, hc]⟩
    | ok d =>
      obtain ⟨s, hs, e2, he2⟩ := h
      simp only [List.map, List.mem_cons] at hs
      rcases hs with hs | hs
      · subst hs; rw [hp] at he2; cases he2
      · obtain ⟨te, hte⟩ := ih (i + 1) ⟨s, hs, e2, he2⟩
        have hc := resolveColumn_dict_ok types (.str p.1) p.2 d hp
        exact ⟨te, by simp only [resolveColumns, hc, hte, Except.map]⟩

theorem loads_meta (cols : List (String × String)) :
    jsonLoadsL (cols.map mkColumn) = metaPy cols := by
  induction cols with
  | nil => rfl
  | cons p rest ih =>
    simp only [List.map, jsonLoadsL, ih, metaPy]
    rfl

theorem loads_rows (rows : List (List Json)) :
    jsonLoadsL (rows.map Json.arr)
      = rows.map (fun vs => PyValue.list (jsonLoadsL vs)) := by
  induction rows with
  | nil => rfl
  | cons row rest ih => simp [jsonLoadsL, jsonLoads, ih]

theorem loads_envelope (cols : List (String × String)) (rows : List (List Json)) :
    jsonLoads (mkEnvelope cols rows)
      = PyValue.dict [("meta", .list (metaPy cols)),
                      ("data", .list (rows.map (fun vs => PyValue.list (jsonLoadsL vs))))] := by
  show PyValue.dict (jsonLoadsF _) = _
  simp only [jsonLoadsF, jsonLoads, loads_meta, loads_rows]

theorem runBody_env (types : TypeRegistry) (cols : List (String × String))
    (descs : List TypeDesc) (rows : List (List Json)) (k : Nat)
    (hd : cols.map (fun p => parse_type types p.2) = descs.map Except.ok) :
    runBody types (jsonLoads (mkEnvelope cols rows)) k
      = ((List.range' 0 cols.length).map Ev.resolvedColumn
           ++ (rowsLoop (metaNames cols) (colConvs descs)
                (rows.map (fun vs => PyValue.list (jsonLoadsL vs))) k 0).1,
         (rowsLoop (metaNames cols) (colConvs descs)
           (rows.map (fun vs => PyValue.list (jsonLoadsL vs))) k 0).2.1,
         (rowsLoop (metaNames cols) (colConvs descs)
           (rows.map (fun vs => PyValue.list (jsonLoadsL vs))) k 0).2.2) := by
  rw [loads_envelope]
  simp only [runBody, pyGet_meta, pyGet_data]
  rw [resolveColumns_ok types cols descs 0 hd]

theorem rowsLoop_noRead (names : List PyValue) (convs : List Conv) :
    ∀ (rows : List PyValue) (k r0 : Nat) (e : Ev), e ∈ (rowsLoop names convs rows k r0).1 →
      e ≠ Ev.readChunk ∧ e ≠ Ev.parsedJson := by
  intro rows k r0 e he
  rcases rowsLoop_events names convs rows k r0 e he with ⟨r, c, v, hev, _, _⟩ | ⟨r, hev, _, _⟩ <;>
    subst hev <;> exact ⟨by simp, by simp⟩

theorem runBody_shape (types : TypeRegistry) (resp : PyValue) (k : Nat) :
    ∃ evs1 evs2,
      (runBody types resp k).1 = evs1 ++ evs2 ∧
      (∀ e ∈ evs1, ∃ j, e = Ev.resolvedColumn j) ∧
      (∀ e ∈ evs2, (∃ r c v, e = Ev.converted r c v ∧ r < k) ∨
        (∃ r, e = Ev.yielded r ∧ r < k)) ∧
      (∀ te, (runBody types resp k).2.2 = some (Err.typeErr te) →
        (runBody types resp k).2.1 = []) := by
  cases hm : pyGet resp "meta" with
  | none => exact ⟨[], [], by simp [runBody, hm], by simp, by simp, by simp [runBody, hm]⟩
  | some mv =>
    cases mv with
    | list meta =>
      rcases hrc : resolveColumns types meta 0 with ⟨evs, res⟩
      have hevs : evs = (resolveColumns types meta 0).1 := by rw [hrc]
      have hresolved : ∀ e ∈ evs, ∃ j, e = Ev.resolvedColumn j :=
        fun e he => resolveColumns_events types meta 0 e (hevs ▸ he)
      cases res with
      | error e =>
        exact ⟨evs, [], by simp [runBody, hm, hrc], hresolved, by simp,
          fun te _ => by simp [runBody, hm, hrc]⟩
      | ok pr =>
        obtain ⟨names, convs⟩ := pr
        cases hd : pyGet resp "data" with
        | none =>
          exact ⟨evs, [], by simp [runBody, hm, hrc, hd], hresolved, by simp,
            fun te hte => by simp [runBody, hm, hrc, hd] at hte⟩
        | some dv =>
          cases dv with
          | list rows =>
            refine ⟨evs, (rowsLoop names convs rows k 0).1, ?_, hresolved, ?_, ?_⟩
            · simp [runBody, hm, hrc, hd]
            · intro e he
              rcases rowsLoop_events names convs rows k 0 e he with
                ⟨r, c, v, hev, _, hb⟩ | ⟨r, hev, _, hb⟩
              · exact Or.inl ⟨r, c, v, hev, by omega⟩
              · exact Or.inr ⟨r, hev, by omega⟩
            · intro te hte
              have h22 : (runBody types resp k).2.2 = (rowsLoop names convs rows k 0).2.2 := by
                simp [runBody, hm, hrc, hd]
              rw [h22] at hte
              rcases rowsLoop_err_kind names convs rows k 0 _ hte with h | ⟨ce, h⟩ <;> simp at h
          | none =>
            exact ⟨evs, [], by simp [runBody, hm, hrc, hd], hresolved, by simp,
              fun te hte => by simp [runBody, hm, hrc, hd] at hte⟩
          | bool b =>
            exact ⟨evs, [], by simp [runBody, hm, hrc, hd], hresolved, by simp,
              fun te hte => by simp [runBody, hm, hrc, hd] at hte⟩
          | int n =>
            exact ⟨evs, [], by simp [runBody, hm, hrc, hd], hresolved, by simp,
              fun te hte => by simp [runBody, hm, hrc, hd] at hte⟩
          | str s =>
            exact ⟨evs, [], by simp [runBody, hm, hrc, hd], hresolved, by simp,
              fun te hte => by simp [runBody, hm, hrc, hd] at hte⟩
          | dict fs =>
            exact ⟨evs, [], by simp [runBody, hm, hrc, hd], hresolved, by simp,
              fun te hte => by simp [runBody, hm, hrc, hd] at hte⟩
    | none => exact ⟨[], [], by simp [runBody, hm], by simp, by simp, by simp [runBody, hm]⟩
    | bool b => exact ⟨[], [], by simp [runBody, hm], by simp, by simp, by simp [runBody, hm]⟩
    | int n => exact ⟨[], [], by simp [runBody, hm], by simp, by simp, by simp [runBody, hm]⟩
    | str s => exact ⟨[], [], by simp [runBody, hm], by simp, by simp, by simp [runBody, hm]⟩
    | dict fs =>
      exact ⟨[], [], by simp [runBody, hm], by simp, by simp, by simp [runBody, hm]⟩

theorem runBody_conv_mem (types : TypeRegistry) (resp : PyValue) (k r c : Nat) (v : PyValue)
    (h : Ev.converted r c v ∈ (runBody types resp k).1) :
    ∃ pyRows vs, pyGet resp "data" = some (.list pyRows) ∧
      pyRows.get? r = some (PyValue.list vs) ∧ vs.get? c = some v := by
  cases hm : pyGet resp "meta" with
  | none => simp [runBody, hm] at h
  | some mv =>
    cases mv with
    | list meta =>
      rcases hrc : resolveColumns types meta 0 with ⟨evs, res⟩
      have hevs : evs = (resolveColumns types meta 0).1 := by rw [hrc]
      cases res with
      | error e =>
        simp only [runBody, hm, hrc] at h
        obtain ⟨j, hj⟩ := resolveColumns_events types meta 0 _ (hevs ▸ h)
        cases hj
      | ok pr =>
        obtain ⟨names, convs⟩ := pr
        cases hd : pyGet resp "data" with
        | none =>
          simp only [runBody, hm, hrc, hd] at h
          obtain ⟨j, hj⟩ := resolveColumns_events types meta 0 _ (hevs ▸ h)
          cases hj
        | some dv =>
          cases dv with
          | list rows =>
            simp only [runBody, hm, hrc, hd, List.mem_append] at h
            rcases h with h | h
            · obtain ⟨j, hj⟩ := resolveColumns_events types meta 0 _ (hevs ▸ h)
              cases hj
            · obtain ⟨j, vs, hr, hg, hgc⟩ := rowsLoop_mem names convs rows k 0 r c v h
              exact ⟨rows, vs, rfl, by rw [hr]; simpa using hg, hgc⟩
          | none =>
            simp only [runBody, hm, hrc, hd] at h
            obtain ⟨j, hj⟩ := resolveColumns_events types meta 0 _ (hevs ▸ h)
            cases hj
          | bool b =>
            simp only [runBody, hm, hrc, hd] at h
            obtain ⟨j, hj⟩ := resolveColumns_events types meta 0 _ (hevs ▸ h)
            cases hj
          | int n =>
            simp only [runBody, hm, hrc, hd] at h
            obtain ⟨j, hj⟩ := resolveColumns_events types meta 0 _ (hevs ▸ h)
            cases hj
          | str s =>
            simp only [runBody, hm, hrc, hd] at h
            obtain ⟨j, hj⟩ := resolveColumns_events types meta 0 _ (hevs ▸ h)
            cases hj
          | dict fs =>
            simp only [runBody, hm, hrc, hd] at h
            obtain ⟨j, hj⟩ := resolveColumns_events types meta 0 _ (hevs ▸ h)
            cases hj
    | none => simp [runBody, hm] at h
    | bool b => simp [runBody, hm] at h
    | int n => simp [runBody, hm] at h
    | str s => simp [runBody, hm] at h
    | dict fs => simp [runBody, hm] at h

mutual
theorem resolveAst_err (types : TypeRegistry) (a : Ast)
    (h : hasUnknownName types a = true) : ∃ e, resolveAst types a = .error e := by
  cases a with
  | simple n =>
    simp only [hasUnknownName, Option.isNone_iff_eq_none] at h
    exact ⟨.unknownType n, by simp [resolveAst, h]⟩
  | composite n args =>
    simp only [hasUnknownName, Bool.or_eq_true, Option.isNone_iff_eq_none] at h
    cases hl : resolveList types args with
    | error e => exact ⟨e, by simp [resolveAst, hl, errBind]⟩
    | ok rs =>
      rcases h with h | h
      · exact ⟨.unknownType n, by simp [resolveAst, hl, h, okBind]⟩
      · rcases resolveList_err types args h with ⟨e, he⟩
        rw [hl] at he
        cases he
  | litInt n => simp [hasUnknownName] at h
  | litStr s => simp [hasUnknownName] at h
  | litPair l n => simp [hasUnknownName] at h

theorem resolveList_err (types : TypeRegistry) (as : List Ast)
    (h : hasUnknownList types as = true) : ∃ e, resolveList types as = .error e := by
  cases as with
  | nil => simp [hasUnknownList] at h
  | cons a rest =>
    simp only [hasUnknownList, Bool.or_eq_true] at h
    rcases h with h | h
    · rcases resolveAst_err types a h with ⟨e, he⟩
      exact ⟨e, by simp [resolveList, he, errBind]⟩
    · cases ha : resolveAst types a with
      | error e => exact ⟨e, by simp [resolveList, ha, errBind]⟩
      | ok r =>
        rcases resolveList_err types rest h with ⟨e, he⟩
        exact ⟨e, by simp [resolveList, ha, he, okBind, errBind]⟩
end

theorem parse_type_unknown (types : TypeRegistry) (s : String) (ast : Ast)
    (hp : parseDecl s = .ok ast) (hu : hasUnknownName types ast = true) :
    ∃ e, parse_type types s = Except.error e := by
  obtain ⟨e, he⟩ := resolveAst_err types ast hu
  exact ⟨e, by simp [parse_type, hp, he]⟩

mutual
theorem resolveAst_err_kind (types : TypeRegistry) (a : Ast) (e : TypeErr)
    (h : resolveAst types a = .error e) :
    (∃ n, e = TypeErr.unknownType n ∧ lookupLast types n = none)
    ∨ (∃ nm ctor args, lookupLast types nm = some ctor
        ∧ ctor args = Except.error e) := by
  cases a with
  | simple n =>
    cases hl : lookupLast types n with
    | none =>
      simp only [resolveAst, hl, Except.error.injEq] at h
      exact Or.inl ⟨n, h.symm, hl⟩
    | some ctor =>
      simp only [resolveAst, hl] at h
      cases hc : ctor [] with
      | ok d => rw [hc] at h; simp [Except.map] at h
      | error e2 =>
        rw [hc] at h
        simp only [Except.map, Except.error.injEq] at h
        subst h
        exact Or.inr ⟨n, ctor, [], hl, hc⟩
  | composite n args =>
    cases hl2 : resolveList types args with
    | error e2 =>
      simp only [resolveAst, hl2, errBind, Except.error.injEq] at h
      subst h
      exact resolveList_err_kind types args e2 hl2
    | ok rs =>
      simp only [resolveAst, hl2, okBind] at h
      cases hl : lookupLast types n with
      | none =>
        simp only [hl, Except.error.injEq] at h
        exact Or.inl ⟨n, h.symm, hl⟩
      | some ctor =>
        simp only [hl] at h
        cases hc : ctor rs with
        | ok d => rw [hc] at h; simp [Except.map] at h
        | error e2 =>
          rw [hc] at h
          simp only [Except.map, Except.error.injEq] at h
          subst h
          exact Or.inr ⟨n, ctor, rs, hl, hc⟩
  | litInt n => simp [resolveAst] at h
  | litStr s => simp [resolveAst] at h
  | litPair l m => simp [resolveAst] at h

theorem resolveList_err_kind (types : TypeRegistry) (as : List Ast) (e : TypeErr)
    (h : resolveList types as = .error e) :
    (∃ n, e = TypeErr.unknownType n ∧ lookupLast types n = none)
    ∨ (∃ nm ctor args, lookupLast types nm = some ctor
        ∧ ctor args = Except.error e) := by
  cases as with
  | nil => cases h
  | cons a rest =>
    cases ha : resolveAst types a with
    | error e2 =>
      simp only [resolveList, ha, errBind, Except.error.injEq] at h
      subst h
      exact resolveAst_err_kind types a e2 ha
    | ok r =>
      simp only [resolveList, ha, okBind] at h
      cases hrest : resolveList types rest with
      | error e2 =>
        rw [hrest] at h
        simp only [errBind, Except.error.injEq] at h
        subst h
        exact resolveList_err_kind types rest e2 hrest
      | ok rs => rw [hrest] at h; simp [okBind] at h
end

theorem pjc_succ (types : TypeRegistry) (content : StreamContent) (k' : Nat) :
    parse_json_compact types content (k' + 1)
      = (List.replicate content.chunks Ev.readChunk
           ++ Ev.parsedJson :: (runBody types (jsonLoads content.doc) (k' + 1)).1,
         (runBody types (jsonLoads content.doc) (k' + 1)).2.1,
         (runBody types (jsonLoads content.doc) (k' + 1)).2.2) := rfl

/-- Claim C4: the Record sequence is lazy with eager setup.  In every run of
`parse_json_compact` the trace splits into a prefix that contains every
column-resolution event and no conversion or yield event, followed by a
suffix with no resolution event (so all descriptor resolution happens
before the first Record is emitted); a resolution failure (an `Err.typeErr`
outcome) means no Record is ever emitted; and a consumer that requests `k`
records never triggers conversion (or emission) of a row with index `≥ k`. -/
theorem c4_lazy_rows_eager_resolution (types : TypeRegistry) (content : StreamContent)
    (k : Nat) (tr : List Ev) (recs : List Record) (err : Option Err)
    (h : parse_json_compact types content k = (tr, recs, err)) :
    (∃ t1 t2, tr = t1 ++ t2
      ∧ (∀ r c v, Ev.converted r c v ∉ t1)
      ∧ (∀ r, Ev.yielded r ∉ t1)
      ∧ (∀ i, Ev.resolvedColumn i ∉ t2))
    ∧ (∀ e, err = some (Err.typeErr e) → recs = [])
    ∧ (∀ r c v, Ev.converted r c v ∈ tr → r < k)
    ∧ (∀ r, Ev.yielded r ∈ tr → r < k) := by
  cases k with
  | zero =>
    simp only [parse_json_compact] at h
    injection h with h1 h23
    injection h23 with h2 h3
    subst h1; subst h2; subst h3
    exact ⟨⟨[], [], rfl, by simp, by simp, by simp⟩, by simp, by simp, by simp⟩
  | succ k' =>
    rw [pjc_succ] at h
    injection h with h1 h23
    injection h23 with h2 h3
    subst h1; subst h2; subst h3
    obtain ⟨evs1, evs2, hsplit, hres1, hconv2, htyp⟩ :=
      runBody_shape types (jsonLoads content.doc) (k' + 1)
    refine ⟨⟨List.replicate content.chunks Ev.readChunk ++ Ev.parsedJson :: evs1, evs2,
      ?_, ?_, ?_, ?_⟩, ?_, ?_, ?_⟩
    · rw [hsplit]
      simp
    · intro r c v hmem
      simp only [List.mem_append, List.mem_cons] at hmem
      rcases hmem with hmem | hmem | hmem
      · exact absurd (List.eq_of_mem_replicate hmem) (by simp)
      · exact Ev.noConfusion hmem
      · obtain ⟨j, hj⟩ := hres1 _ hmem
        exact Ev.noConfusion hj
    · intro r hmem
      simp only [List.mem_append, List.mem_cons] at hmem
      rcases hmem with hmem | hmem | hmem
      · exact absurd (List.eq_of_mem_replicate hmem) (by simp)
      · exact Ev.noConfusion hmem
      · obtain ⟨j, hj⟩ := hres1 _ hmem
        exact Ev.noConfusion hj
    · intro i hmem
      rcases hconv2 _ hmem with ⟨r, c, v, hev, _⟩ | ⟨r, hev, _⟩ <;> exact Ev.noConfusion hev
    · exact htyp
    · intro r c v hmem
      simp only [List.mem_append, List.mem_cons] at hmem
      rcases hmem with hmem | hmem | hmem
      · exact absurd (List.eq_of_mem_replicate hmem) (by simp)
      · exact Ev.noConfusion hmem
      · rw [hsplit] at hmem
        simp only [List.mem_append] at hmem
        rcases hmem with hmem | hmem
        · obtain ⟨j, hj⟩ := hres1 _ hmem
          exact Ev.noConfusion hj
        · rcases hconv2 _ hmem with ⟨r2, c2, v2, hev, hb⟩ | ⟨r2, hev, hb⟩
          · injection hev with e1 e2 e3; subst e1; exact hb
          · exact Ev.noConfusion hev
    · intro r hmem
      simp only [List.mem_append, List.mem_cons] at hmem
      rcases hmem with hmem | hmem | hmem
      · exact absurd (List.eq_of_mem_replicate hmem) (by simp)
      · exact Ev.noConfusion hmem
      · rw [hsplit] at hmem
        simp only [List.mem_append] at hmem
        rcases hmem with hmem | hmem
        · obtain ⟨j, hj⟩ := hres1 _ hmem
          exact Ev.noConfusion hj
        · rcases hconv2 _ hmem with ⟨r2, c2, v2, hev, hb⟩ | ⟨r2, hev, hb⟩
          · exact Ev.noConfusion hev
          · injection hev with e1; subst e1; exact hb

theorem c4_witness :
    (parse_json_compact defaultTypes
      ⟨1, mkEnvelope [("n", "Bogus")] [[Json.intLit 1]]⟩ 1).2.1 = [] :=
  (c4_lazy_rows_eager_resolution defaultTypes
    ⟨1, mkEnvelope [("n", "Bogus")] [[Json.intLit 1]]⟩ 1 _ _ _ rfl).2.1
    (TypeErr.unknownType "Bogus") rfl

/-- Claim C5: the decoder never produces a Record before the whole payload is
read and parsed.  Whenever the generator runs (the consumer requests at
least one record), the trace starts with all `readChunk` events of the
body followed by the single `parsedJson` event, the remaining suffix holds
no wire read and no parse event, and every yielded Record lies in that
suffix — no interleaving of record emission with reading the wire. -/
theorem c5_full_buffer_before_first_record (types : TypeRegistry) (ch : Nat) (doc : Json)
    (k : Nat) (tr : List Ev) (recs : List Record) (err : Option Err)
    (h : parse_json_compact types ⟨ch, doc⟩ k = (tr, recs, err)) (hk : 1 ≤ k) :
    ∃ t2, tr = List.replicate ch Ev.readChunk ++ Ev.parsedJson :: t2
      ∧ (∀ e ∈ t2, e ≠ Ev.readChunk ∧ e ≠ Ev.parsedJson)
      ∧ (∀ r, Ev.yielded r ∈ tr → Ev.yielded r ∈ t2) := by
  cases k with
  | zero => omega
  | succ k' =>
    rw [pjc_succ] at h
    injection h with h1 h23
    injection h23 with h2 h3
    subst h1; subst h2; subst h3
    obtain ⟨evs1, evs2, hsplit, hres1, hconv2, _⟩ :=
      runBody_shape types (jsonLoads doc) (k' + 1)
    refine ⟨(runBody types (jsonLoads doc) (k' + 1)).1, rfl, ?_, ?_⟩
    · intro e he
      rw [hsplit] at he
      simp only [List.mem_append] at he
      rcases he with he | he
      · obtain ⟨j, hj⟩ := hres1 _ he
        subst hj
        exact ⟨by simp, by simp⟩
      · rcases hconv2 _ he with ⟨r, c, v, hev, _⟩ | ⟨r, hev, _⟩ <;> subst hev <;>
          exact ⟨by simp, by simp⟩
    · intro r hmem
      simp only [List.mem_append, List.mem_cons] at hmem
      rcases hmem with hmem | hmem | hmem
      · exact absurd (List.eq_of_mem_replicate hmem) (by simp)
      · exact Ev.noConfusion hmem
      · exact hmem

theorem c5_witness :
    ∃ t2, (parse_json_compact defaultTypes
        ⟨2, mkEnvelope [("id", "UInt8")] [[Json.intLit 7]]⟩ 1).1
      = List.replicate 2 Ev.readChunk ++ Ev.parsedJson :: t2
      ∧ (∀ e ∈ t2, e ≠ Ev.readChunk ∧ e ≠ Ev.parsedJson)
      ∧ (∀ r, Ev.yielded r ∈ (parse_json_compact defaultTypes
          ⟨2, mkEnvelope [("id", "UInt8")] [[Json.intLit 7]]⟩ 1).1 → Ev.yielded r ∈ t2) :=
  c5_full_buffer_before_first_record defaultTypes 2
    (mkEnvelope [("id", "UInt8")] [[Json.intLit 7]]) 1 _ _ _ rfl (by decide)

/-- Claim C7: parsing and resolution are deterministic and pure.  Parsing the
same declaration string twice yields structurally identical ASTs, and two
resolutions of the same string against the same registry yield descriptors
whose `from_json` conversions agree on every wire value.  (In this pure
embedding both parts follow from referential transparency; the second also
uses injectivity of a successful resolution result.) -/
theorem c7_parse_resolution_deterministic (types : TypeRegistry) (s : String) :
    parseDecl s = parseDecl s
    ∧ ∀ (d1 d2 : TypeDesc) (v : PyValue),
        parse_type types s = .ok d1 → parse_type types s = .ok d2 →
        from_json d1 v = from_json d2 v := by
  refine ⟨rfl, ?_⟩
  intro d1 d2 v h1 h2
  rw [h1] at h2
  injection h2 with h2
  rw [h2]

theorem c7_witness :
    parse_type defaultTypes "Nullable(UInt8)" = .ok (.nullable (.uInt 8))
    ∧ from_json (.nullable (.uInt 8)) (.int 1)
        = from_json (.nullable (.uInt 8)) (.int 1) :=
  ⟨rfl, (c7_parse_resolution_deterministic defaultTypes "Nullable(UInt8)").2
    (.nullable (.uInt 8)) (.nullable (.uInt 8)) (.int 1) rfl rfl⟩

/-- Claim C3: floating-point literals keep their original decimal text.
`json.loads` is called with `parse_float=str`, so whenever the raw document
holds a float literal anywhere inside the wire value of row `r`, column `c`
(path `p` below the cell), the value actually handed to that column's
converter carries the literal's exact source text as a string at the same
path — the literal is never turned into a binary double first. -/
theorem c3_float_text_preserved (types : TypeRegistry) (ch : Nat) (doc : Json)
    (k : Nat) (tr : List Ev) (recs : List Record) (err : Option Err)
    (r c : Nat) (v : PyValue) (p : List Step) (t : String)
    (h : parse_json_compact types ⟨ch, doc⟩ k = (tr, recs, err))
    (hmem : Ev.converted r c v ∈ tr)
    (hfl : doc.get? (Step.key "data" :: Step.idx r :: Step.idx c :: p)
      = some (Json.floatLit t)) :
    v.get? p = some (PyValue.str t) := by
  cases k with
  | zero =>
    simp only [parse_json_compact] at h
    injection h with h1 h23
    subst h1
    simp at hmem
  | succ k' =>
    rw [pjc_succ] at h
    injection h with h1 h23
    injection h23 with h2 h3
    subst h1; subst h2; subst h3
    have hmem' : Ev.converted r c v ∈ (runBody types (jsonLoads doc) (k' + 1)).1 := by
      simp only [List.mem_append, List.mem_cons] at hmem
      rcases hmem with hmem | hmem | hmem
      · exact absurd (List.eq_of_mem_replicate hmem) (by simp)
      · exact Ev.noConfusion hmem
      · exact hmem
    obtain ⟨pyRows, vs, hdata, hrow, hcell⟩ :=
      runBody_conv_mem types (jsonLoads doc) (k' + 1) r c v hmem'
    have hload := get?_loads (Step.key "data" :: Step.idx r :: Step.idx c :: p) doc _ hfl
    cases hjl : jsonLoads doc with
    | dict gs =>
      rw [hjl] at hdata hload
      have hdata' : lookupLast gs "data" = some (PyValue.list pyRows) := hdata
      simp only [PyValue.get?, hdata', hrow, hcell, jsonLoads] at hload
      exact hload
    | none => rw [hjl] at hdata; cases hdata
    | bool b => rw [hjl] at hdata; cases hdata
    | int n => rw [hjl] at hdata; cases hdata
    | str s => rw [hjl] at hdata; cases hdata
    | list xs => rw [hjl] at hdata; cases hdata

theorem c3_witness :
    (Json.obj [("meta", .arr [Json.obj [("name", .str "x"), ("type", .str "String")]]),
      ("data", .arr [Json.arr [Json.floatLit "1.10"]])]).get?
        [Step.key "data", Step.idx 0, Step.idx 0] = some (Json.floatLit "1.10")
    ∧ PyValue.get? (PyValue.str "1.10") [] = some (PyValue.str "1.10") :=
  by
  refine ⟨rfl, c3_float_text_preserved defaultTypes 1
    (Json.obj [("meta", .arr [Json.obj [("name", .str "x"), ("type", .str "String")]]),
      ("data", .arr [Json.arr [Json.floatLit "1.10"]])]) 1 _ _ _ 0 0
    (PyValue.str "1.10") [] "1.10" rfl ?_ rfl⟩
  show Ev.converted 0 0 (PyValue.str "1.10")
    ∈ [Ev.readChunk, Ev.parsedJson, Ev.resolvedColumn 0,
       Ev.converted 0 0 (PyValue.str "1.10"), Ev.yielded 0]
  simp

/-- Claim C1: the decoder parses and resolves each column's type declaration
exactly once (one `resolvedColumn i` event per column, and one converter per
column), all before any row value is converted, and then converts each row's
values positionally against the column-aligned converter list, producing one
Record per data row in input order. -/
theorem c1_resolve_once_convert_positionally (types : TypeRegistry)
    (cols : List (String × String)) (descs : List TypeDesc)
    (rows : List (List Json)) (valss : List (List Native)) (ch k : Nat)
    (tr : List Ev) (recs : List Record) (err : Option Err)
    (hd : cols.map (fun p => parse_type types p.2) = descs.map Except.ok)
    (hv : rows.map (fun row => decodeRow (colConvs descs) (jsonLoadsL row))
        = valss.map Except.ok)
    (hk : rows.length ≤ k) (hk1 : 1 ≤ k)
    (h : parse_json_compact types ⟨ch, mkEnvelope cols rows⟩ k = (tr, recs, err)) :
    recs = valss.map (fun vals => Record.mk (metaNames cols) vals)
    ∧ err = none
    ∧ (∀ i, i < cols.length → tr.countP (isResolved i) = 1)
    ∧ ∃ t1 t2, tr = t1 ++ t2
        ∧ (∀ i, Ev.resolvedColumn i ∈ tr → Ev.resolvedColumn i ∈ t1)
        ∧ (∀ r c v, Ev.converted r c v ∉ t1) := by
  cases k with
  | zero => omega
  | succ k' =>
    rw [pjc_succ] at h
    have hdoc : (StreamContent.mk ch (mkEnvelope cols rows)).doc = mkEnvelope cols rows := rfl
    rw [hdoc, runBody_env types cols descs rows (k' + 1) hd] at h
    injection h with h1 h23
    injection h23 with h2 h3
    subst h1; subst h2; subst h3
    have hrows : (rows.map jsonLoadsL).map PyValue.list
        = rows.map (fun vs => PyValue.list (jsonLoadsL vs)) := by
      simp [List.map_map, Function.comp]
    have hv' : (rows.map jsonLoadsL).map (decodeRow (colConvs descs))
        = valss.map Except.ok := by
      rw [List.map_map]
      simpa [Function.comp] using hv
    have hlen : (rows.map jsonLoadsL).length ≤ k' + 1 := by simpa using hk
    have hok := rowsLoop_ok (metaNames cols) (colConvs descs)
      (rows.map jsonLoadsL) valss (k' + 1) 0 hv' hlen
    rw [hrows] at hok
    refine ⟨?_, ?_, ?_, ?_⟩
    · exact congrArg Prod.fst hok
    · exact congrArg Prod.snd hok
    · intro i hi
      have hnores : ∀ e ∈ (rowsLoop (metaNames cols) (colConvs descs)
          (rows.map (fun vs => PyValue.list (jsonLoadsL vs))) (k' + 1) 0).1,
          ¬ isResolved i e = true := by
        intro e he
        rcases rowsLoop_events _ _ _ _ _ e he with ⟨r, c, v, hev, _⟩ | ⟨r, hev, _⟩ <;>
          subst hev <;> simp [isResolved]
      have hrep : ∀ e ∈ List.replicate ch Ev.readChunk, ¬ isResolved i e = true := by
        intro e he
        rw [List.eq_of_mem_replicate he]
        simp [isResolved]
      rw [List.countP_append, List.countP_cons, List.countP_append]
      rw [List.countP_eq_zero.mpr hrep, List.countP_eq_zero.mpr hnores]
      have hmapcount : ((List.range' 0 cols.length).map Ev.resolvedColumn).countP
          (isResolved i) = 1 := by
        rw [List.countP_map]
        have : (isResolved i ∘ Ev.resolvedColumn) = (fun j => j == i) := by
          funext j
          simp [isResolved, Function.comp]
        rw [this]
        exact List.count_eq_one_of_mem (List.nodup_range' _ _)
          (by simp [List.mem_range'_1]; omega)
      rw [hmapcount]
      simp [isResolved]
    · refine ⟨List.replicate ch Ev.readChunk ++ Ev.parsedJson ::
        (List.range' 0 cols.length).map Ev.resolvedColumn,
        (rowsLoop (metaNames cols) (colConvs descs)
          (rows.map (fun vs => PyValue.list (jsonLoadsL vs))) (k' + 1) 0).1, by simp, ?_, ?_⟩
      · intro i hmem
        simp only [List.mem_append, List.mem_cons] at hmem
        rcases hmem with hmem | hmem | hmem
        · exact List.mem_append_left _ hmem
        · exact Ev.noConfusion hmem
        · rcases hmem with hmem | hmem
          · exact List.mem_append_right _ (List.mem_cons_of_mem _ hmem)
          · rcases rowsLoop_events _ _ _ _ _ _ hmem with ⟨r, c, v, hev, _⟩ | ⟨r, hev, _⟩ <;>
              exact Ev.noConfusion hev
      · intro r c v hmem
        simp only [List.mem_append, List.mem_cons] at hmem
        rcases hmem with hmem | hmem | hmem
        · exact absurd (List.eq_of_mem_replicate hmem) (by simp)
        · exact Ev.noConfusion hmem
        · obtain ⟨j, hj⟩ := List.mem_map.mp hmem
          exact Ev.noConfusion hj.2

theorem c1_witness :
    (parse_json_compact defaultTypes
        ⟨1, mkEnvelope [("id", "UInt8"), ("tag", "Nullable(String)")]
          [[Json.intLit 1, Json.str "x"], [Json.intLit 2, Json.null]]⟩ 2).2.1
      = [Record.mk [PyValue.str "id", PyValue.str "tag"] [Native.int 1, Native.str "x"],
         Record.mk [PyValue.str "id", PyValue.str "tag"] [Native.int 2, Native.none]]
    ∧ (parse_json_compact defaultTypes
        ⟨1, mkEnvelope [("id", "UInt8"), ("tag", "Nullable(String)")]
          [[Json.intLit 1, Json.str "x"], [Json.intLit 2, Json.null]]⟩ 2).2.2 = none := by
  have hc := c1_resolve_once_convert_positionally defaultTypes
    [("id", "UInt8"), ("tag", "Nullable(String)")]
    [TypeDesc.uInt 8, TypeDesc.nullable TypeDesc.string]
    [[Json.intLit 1, Json.str "x"], [Json.intLit 2, Json.null]]
    [[Native.int 1, Native.str "x"], [Native.int 2, Native.none]]
    1 2 _ _ _ rfl rfl (by decide) (by decide) rfl
  exact ⟨hc.1, hc.2.1⟩

/-- Claim C8: a data row whose length differs from the column count raises no
error — `zip(converters, row)` silently pairs converters with values up to
the shorter of the two lengths, so the yielded Record has
`min (number of columns) (row length)` values (extra row values are
dropped, missing values leave trailing columns absent), while `names`
keeps every column name. -/
theorem c8_zip_truncates_mismatched_rows (types : TypeRegistry)
    (cols : List (String × String)) (descs : List TypeDesc)
    (row : List Json) (vals : List Native) (ch k : Nat)
    (tr : List Ev) (recs : List Record) (err : Option Err)
    (hd : cols.map (fun p => parse_type types p.2) = descs.map Except.ok)
    (hv : decodeRow (colConvs descs) (jsonLoadsL row) = Except.ok vals)
    (hk1 : 1 ≤ k)
    (h : parse_json_compact types ⟨ch, mkEnvelope cols [row]⟩ k = (tr, recs, err)) :
    recs = [Record.mk (metaNames cols) vals]
    ∧ err = none
    ∧ vals.length = min cols.length row.length
    ∧ (metaNames cols).length = cols.length := by
  cases k with
  | zero => omega
  | succ k' =>
    rw [pjc_succ] at h
    have hdoc : (StreamContent.mk ch (mkEnvelope cols [row])).doc = mkEnvelope cols [row] := rfl
    rw [hdoc, runBody_env types cols descs [row] (k' + 1) hd] at h
    injection h with h1 h23
    injection h23 with h2 h3
    subst h1; subst h2; subst h3
    have hv' : ([jsonLoadsL row] : List (List PyValue)).map (decodeRow (colConvs descs))
        = [vals].map Except.ok := by simp [hv]
    have hok := rowsLoop_ok (metaNames cols) (colConvs descs)
      [jsonLoadsL row] [vals] (k' + 1) 0 hv' (by simp)
    have hrows : ([jsonLoadsL row] : List (List PyValue)).map PyValue.list
        = ([row] : List (List Json)).map (fun vs => PyValue.list (jsonLoadsL vs)) := by simp
    rw [hrows] at hok
    have hlen1 : cols.length = descs.length := by
      have := congrArg List.length hd
      simpa using this
    have hlen2 := decodeRow_len (colConvs descs) (jsonLoadsL row) vals hv
    refine ⟨?_, ?_, ?_, by simp [metaNames]⟩
    · exact congrArg Prod.fst hok
    · exact congrArg Prod.snd hok
    · rw [hlen2, jsonLoadsL_eq_map]
      simp [colConvs, hlen1]

theorem c8_witness :
    (parse_json_compact defaultTypes
        ⟨1, mkEnvelope [("a", "UInt8"), ("b", "String")]
          [[Json.intLit 5, Json.str "x", Json.bool true]]⟩ 1).2.1
      = [Record.mk [PyValue.str "a", PyValue.str "b"] [Native.int 5, Native.str "x"]]
    ∧ (2 : Nat) = min 2 3 := by
  have hc := c8_zip_truncates_mismatched_rows defaultTypes
    [("a", "UInt8"), ("b", "String")] [TypeDesc.uInt 8, TypeDesc.string]
    [Json.intLit 5, Json.str "x", Json.bool true] [Native.int 5, Native.str "x"]
    1 1 _ _ _ rfl rfl (by decide) rfl
  exact ⟨hc.1, hc.2.2.1⟩

/-- Claim C2 (amended): a failed conversion of any single wire value aborts
the decode at that point — the Records of the rows before the failing row
are all that was emitted, no partial or best-effort Record is built for the
failing row, no later row is converted — and the exception that propagates
is exactly the converter's own error.  The converter receives only the
value (parser.py line 57) and `parse_json_compact` attaches nothing to the
exception, so the error does NOT identify the failing row index or column
name (see the counterexample). -/
theorem c2_conversion_failure_aborts (types : TypeRegistry)
    (cols : List (String × String)) (descs : List TypeDesc)
    (good : List (List Json)) (valss : List (List Native))
    (bad : List Json) (more : List (List Json)) (e : ConvErr) (ch k : Nat)
    (tr : List Ev) (recs : List Record) (err : Option Err)
    (hd : cols.map (fun p => parse_type types p.2) = descs.map Except.ok)
    (hv : good.map (fun row => decodeRow (colConvs descs) (jsonLoadsL row))
        = valss.map Except.ok)
    (hbad : decodeRow (colConvs descs) (jsonLoadsL bad) = .error e)
    (hk : good.length < k)
    (h : parse_json_compact types ⟨ch, mkEnvelope cols (good ++ bad :: more)⟩ k
        = (tr, recs, err)) :
    recs = valss.map (fun vals => Record.mk (metaNames cols) vals)
    ∧ err = some (Err.convErr e)
    ∧ (∀ r, Ev.yielded r ∈ tr → r < good.length)
    ∧ (∀ r c v, Ev.converted r c v ∈ tr → r ≤ good.length) := by
  cases k with
  | zero => omega
  | succ k' =>
    rw [pjc_succ] at h
    have hdoc : (StreamContent.mk ch (mkEnvelope cols (good ++ bad :: more))).doc
        = mkEnvelope cols (good ++ bad :: more) := rfl
    rw [hdoc, runBody_env types cols descs (good ++ bad :: more) (k' + 1) hd] at h
    injection h with h1 h23
    injection h23 with h2 h3
    subst h1; subst h2; subst h3
    have hv' : (good.map jsonLoadsL).map (decodeRow (colConvs descs))
        = valss.map Except.ok := by
      rw [List.map_map]
      simpa [Function.comp] using hv
    have hlen : (good.map jsonLoadsL).length < k' + 1 := by simpa using hk
    obtain ⟨hout, htr, hconv⟩ := rowsLoop_fail (metaNames cols) (colConvs descs)
      (good.map jsonLoadsL) valss (jsonLoadsL bad)
      (more.map (fun vs => PyValue.list (jsonLoadsL vs))) (k' + 1) 0 e hv' hbad hlen
    have hshape : (good.map jsonLoadsL).map PyValue.list
        ++ PyValue.list (jsonLoadsL bad)
          :: more.map (fun vs => PyValue.list (jsonLoadsL vs))
        = (good ++ bad :: more).map (fun vs => PyValue.list (jsonLoadsL vs)) := by
      simp [List.map_map, Function.comp]
    rw [hshape] at hout htr hconv
    refine ⟨congrArg Prod.fst hout, congrArg Prod.snd hout, ?_, ?_⟩
    · intro r hmem
      simp only [List.mem_append, List.mem_cons] at hmem
      rcases hmem with hmem | hmem | hmem
      · exact absurd (List.eq_of_mem_replicate hmem) (by simp)
      · exact Ev.noConfusion hmem
      · rcases hmem with hmem | hmem
        · obtain ⟨j, hj⟩ := List.mem_map.mp hmem
          exact Ev.noConfusion hj.2
        · have := htr r hmem
          simpa using this
    · intro r c v hmem
      simp only [List.mem_append, List.mem_cons] at hmem
      rcases hmem with hmem | hmem | hmem
      · exact absurd (List.eq_of_mem_replicate hmem) (by simp)
      · exact Ev.noConfusion hmem
      · rcases hmem with hmem | hmem
        · obtain ⟨j, hj⟩ := List.mem_map.mp hmem
          exact Ev.noConfusion hj.2
        · have := hconv r c v hmem
          simp only [List.length_map] at this
          omega

theorem c2_witness :
    (parse_json_compact defaultTypes
        ⟨1, mkEnvelope [("n", "UInt8")]
          [[Json.intLit 1], [Json.intLit 300], [Json.intLit 2]]⟩ 10).2.1
      = [Record.mk [PyValue.str "n"] [Native.int 1]]
    ∧ (parse_json_compact defaultTypes
        ⟨1, mkEnvelope [("n", "UInt8")]
          [[Json.intLit 1], [Json.intLit 300], [Json.intLit 2]]⟩ 10).2.2
      = some (Err.convErr (ConvErr.decodeValue "UInt" (PyValue.int 300))) := by
  have hc := c2_conversion_failure_aborts defaultTypes [("n", "UInt8")] [TypeDesc.uInt 8]
    [[Json.intLit 1]] [[Native.int 1]] [Json.intLit 300] [[Json.intLit 2]]
    (ConvErr.decodeValue "UInt" (PyValue.int 300)) 1 10 _ _ _ rfl rfl rfl (by decide) rfl
  exact ⟨hc.1, hc.2.1⟩

theorem c2_counterexample :
    (parse_json_compact defaultTypes
        ⟨1, mkEnvelope [("n", "UInt8")] [[Json.intLit 300], [Json.intLit 1]]⟩ 10).2.2
      = (parse_json_compact defaultTypes
        ⟨1, mkEnvelope [("n", "UInt8")] [[Json.intLit 1], [Json.intLit 300]]⟩ 10).2.2
    ∧ (parse_json_compact defaultTypes
        ⟨1, mkEnvelope [("n", "UInt8")] [[Json.intLit 300], [Json.intLit 1]]⟩ 10).2.1.length
      = 0
    ∧ (parse_json_compact defaultTypes
        ⟨1, mkEnvelope [("n", "UInt8")] [[Json.intLit 1], [Json.intLit 300]]⟩ 10).2.1.length
      = 1
    ∧ (parse_json_compact defaultTypes
        ⟨1, mkEnvelope [("a", "UInt8"), ("b", "UInt8")]
          [[Json.intLit 300, Json.intLit 1]]⟩ 10).2.2
      = (parse_json_compact defaultTypes
        ⟨1, mkEnvelope [("a", "UInt8"), ("b", "UInt8")]
          [[Json.intLit 1, Json.intLit 300]]⟩ 10).2.2
    ∧ (parse_json_compact defaultTypes
        ⟨1, mkEnvelope [("n", "UInt8")] [[Json.intLit 300], [Json.intLit 1]]⟩ 10).2.2
      = some (Err.convErr (ConvErr.decodeValue "UInt" (PyValue.int 300))) :=
  ⟨rfl, rfl, rfl, rfl, rfl⟩

/-- Claim C9: records already yielded are retained.  When a later row fails
to convert, the decode raises out of the generator, but every Record of an
earlier row stays with the consumer: the record list has exactly one entry
per successfully converted earlier row, each unchanged. -/
theorem c9_yielded_records_retained (types : TypeRegistry)
    (cols : List (String × String)) (descs : List TypeDesc)
    (good : List (List Json)) (valss : List (List Native))
    (bad : List Json) (more : List (List Json)) (e : ConvErr) (ch k : Nat)
    (tr : List Ev) (recs : List Record) (err : Option Err)
    (hd : cols.map (fun p => parse_type types p.2) = descs.map Except.ok)
    (hv : good.map (fun row => decodeRow (colConvs descs) (jsonLoadsL row))
        = valss.map Except.ok)
    (hbad : decodeRow (colConvs descs) (jsonLoadsL bad) = .error e)
    (hk : good.length < k)
    (h : parse_json_compact types ⟨ch, mkEnvelope cols (good ++ bad :: more)⟩ k
        = (tr, recs, err)) :
    recs.length = valss.length
    ∧ (∀ i, recs.get? i
        = (valss.get? i).map (fun vals => Record.mk (metaNames cols) vals))
    ∧ err ≠ none := by
  cases k with
  | zero => omega
  | succ k' =>
    rw [pjc_succ] at h
    have hdoc : (StreamContent.mk ch (mkEnvelope cols (good ++ bad :: more))).doc
        = mkEnvelope cols (good ++ bad :: more) := rfl
    rw [hdoc, runBody_env types cols descs (good ++ bad :: more) (k' + 1) hd] at h
    injection h with h1 h23
    injection h23 with h2 h3
    subst h1; subst h2; subst h3
    have hv' : (good.map jsonLoadsL).map (decodeRow (colConvs descs))
        = valss.map Except.ok := by
      rw [List.map_map]
      simpa [Function.comp] using hv
    have hlen : (good.map jsonLoadsL).length < k' + 1 := by simpa using hk
    obtain ⟨hout, _, _⟩ := rowsLoop_fail (metaNames cols) (colConvs descs)
      (good.map jsonLoadsL) valss (jsonLoadsL bad)
      (more.map (fun vs => PyValue.list (jsonLoadsL vs))) (k' + 1) 0 e hv' hbad hlen
    have hshape : (good.map jsonLoadsL).map PyValue.list
        ++ PyValue.list (jsonLoadsL bad)
          :: more.map (fun vs => PyValue.list (jsonLoadsL vs))
        = (good ++ bad :: more).map (fun vs => PyValue.list (jsonLoadsL vs)) := by
      simp [List.map_map, Function.comp]
    rw [hshape] at hout
    have hrecs := congrArg Prod.fst hout
    have herr := congrArg Prod.snd hout
    simp only at hrecs herr
    refine ⟨by rw [hrecs]; simp, ?_, by rw [herr]; simp⟩
    intro i
    rw [hrecs, List.get?_map]

theorem c9_witness :
    (parse_json_compact defaultTypes
        ⟨1, mkEnvelope [("n", "UInt8")]
          [[Json.intLit 1], [Json.intLit 2], [Json.intLit 300]]⟩ 10).2.1.length = 2
    ∧ (parse_json_compact defaultTypes
        ⟨1, mkEnvelope [("n", "UInt8")]
          [[Json.intLit 1], [Json.intLit 2], [Json.intLit 300]]⟩ 10).2.2 ≠ none := by
  have hc := c9_yielded_records_retained defaultTypes [("n", "UInt8")] [TypeDesc.uInt 8]
    [[Json.intLit 1], [Json.intLit 2]] [[Native.int 1], [Native.int 2]]
    [Json.intLit 300] [] (ConvErr.decodeValue "UInt" (PyValue.int 300)) 1 10 _ _ _
    rfl rfl rfl (by decide) rfl
  exact ⟨hc.1, hc.2.2⟩

/-- Claim C10: Record construction is all-or-nothing per row.  Every Record
that the decoder ever yields corresponds to a data row that was a JSON
array and whose values ALL converted successfully; the Record carries
exactly those converted values (and the full column-name list) — no
Record with raw, unconverted or partially converted values is ever
emitted. -/
theorem c10_records_fully_converted (types : TypeRegistry)
    (cols : List (String × String)) (descs : List TypeDesc)
    (rows : List (List Json)) (ch k : Nat)
    (tr : List Ev) (recs : List Record) (err : Option Err)
    (hd : cols.map (fun p => parse_type types p.2) = descs.map Except.ok)
    (h : parse_json_compact types ⟨ch, mkEnvelope cols rows⟩ k = (tr, recs, err)) :
    ∀ i, i < recs.length → ∃ vs vals,
      rows.get? i = some vs
      ∧ decodeRow (colConvs descs) (jsonLoadsL vs) = Except.ok vals
      ∧ recs.get? i = some (Record.mk (metaNames cols) vals) := by
  cases k with
  | zero =>
    simp only [parse_json_compact] at h
    injection h with h1 h23
    injection h23 with h2 h3
    subst h2
    intro i hi
    simp at hi
  | succ k' =>
    rw [pjc_succ] at h
    have hdoc : (StreamContent.mk ch (mkEnvelope cols rows)).doc = mkEnvelope cols rows := rfl
    rw [hdoc, runBody_env types cols descs rows (k' + 1) hd] at h
    injection h with h1 h23
    injection h23 with h2 h3
    subst h1; subst h2; subst h3
    intro i hi
    obtain ⟨vs', vals, hg, hdec, hgr⟩ := rowsLoop_records (metaNames cols) (colConvs descs)
      (rows.map (fun vs => PyValue.list (jsonLoadsL vs))) (k' + 1) 0 i hi
    cases hrow : rows.get? i with
    | none => rw [List.get?_map, hrow] at hg; cases hg
    | some vs =>
      rw [List.get?_map, hrow] at hg
      simp only [Option.map_some', Option.some.injEq] at hg
      have hvs : jsonLoadsL vs = vs' := by
        injection hg.symm with hg2
        exact hg2.symm
      refine ⟨vs, vals, rfl, ?_, hgr⟩
      rw [hvs]
      exact hdec

theorem c10_witness :
    ∃ vs vals,
      ([[Json.intLit 7, Json.floatLit "1.5"]] : List (List Json)).get? 0 = some vs
      ∧ decodeRow (colConvs [TypeDesc.uInt 8, TypeDesc.string]) (jsonLoadsL vs)
          = Except.ok vals
      ∧ (parse_json_compact defaultTypes
          ⟨1, mkEnvelope [("n", "UInt8"), ("x", "String")]
            [[Json.intLit 7, Json.floatLit "1.5"]]⟩ 1).2.1.get? 0
        = some (Record.mk (metaNames [("n", "UInt8"), ("x", "String")]) vals) :=
  c10_records_fully_converted defaultTypes [("n", "UInt8"), ("x", "String")]
    [TypeDesc.uInt 8, TypeDesc.string] [[Json.intLit 7, Json.floatLit "1.5"]]
    1 1 _ _ _ rfl rfl 0 (by decide)

/-- Claim C6 (amended): a well-formed declaration naming an unregistered
identifier at any nesting level always fails at resolution time, before any
wire value is decoded: `parse_type` returns an error, the decode call
yields no Records, aborts with a resolution-time error (`Err.typeErr`),
and never invokes a converter.  The resolution error is the unknown-type
lookup error naming an unregistered identifier, unless a registered
constructor invoked during the bottom-up traversal rejected its own
arguments before the unknown name was reached (e.g. wrong argument arity
for a registered type), in which case that constructor's error is reported
instead — the final conjunct proves exactly this dichotomy, and the
counterexample shows the second alternative is reachable. -/
theorem c6_unknown_name_fails_resolution (types : TypeRegistry)
    (cols : List (String × String)) (rows : List (List Json))
    (s : String) (ast : Ast) (ch k : Nat)
    (tr : List Ev) (recs : List Record) (err : Option Err)
    (hp : parseDecl s = .ok ast)
    (hu : hasUnknownName types ast = true)
    (hcol : s ∈ cols.map Prod.snd)
    (hk : 1 ≤ k)
    (h : parse_json_compact types ⟨ch, mkEnvelope cols rows⟩ k = (tr, recs, err)) :
    (∃ e, parse_type types s = Except.error e)
    ∧ recs = []
    ∧ (∃ te, err = some (Err.typeErr te))
    ∧ (∀ r c v, Ev.converted r c v ∉ tr)
    ∧ (∀ e2, parse_type types s = Except.error e2 →
        (∃ n, e2 = TypeErr.unknownType n ∧ lookupLast types n = none)
        ∨ (∃ nm ctor args, lookupLast types nm = some ctor
            ∧ ctor args = Except.error e2)) := by
  have hkind : ∀ e2, parse_type types s = Except.error e2 →
      (∃ n, e2 = TypeErr.unknownType n ∧ lookupLast types n = none)
      ∨ (∃ nm ctor args, lookupLast types nm = some ctor
          ∧ ctor args = Except.error e2) := by
    intro e2 he2
    cases hra : resolveAst types ast with
    | ok r =>
      obtain ⟨e3, he3⟩ := resolveAst_err types ast hu
      rw [hra] at he3
      cases he3
    | error e3 =>
      have hpt : parse_type types s = Except.error e3 := by simp [parse_type, hp, hra]
      rw [hpt] at he2
      injection he2 with he2
      exact he2 ▸ resolveAst_err_kind types ast e3 hra
  obtain ⟨e, he⟩ := parse_type_unknown types s ast hp hu
  obtain ⟨te, hte⟩ := resolveColumns_fail types cols 0 ⟨s, hcol, e, he⟩
  cases k with
  | zero => omega
  | succ k' =>
    rw [pjc_succ] at h
    have hdoc : (StreamContent.mk ch (mkEnvelope cols rows)).doc = mkEnvelope cols rows := rfl
    rw [hdoc] at h
    rcases hrc : resolveColumns types (metaPy cols) 0 with ⟨evs, res⟩
    rw [hrc] at hte
    simp only at hte
    subst hte
    have hrb : runBody types (jsonLoads (mkEnvelope cols rows)) (k' + 1)
        = (evs, [], some (Err.typeErr te)) := by
      rw [loads_envelope]
      simp only [runBody, pyGet_meta, hrc]
    rw [hrb] at h
    injection h with h1 h23
    injection h23 with h2 h3
    subst h1; subst h2; subst h3
    refine ⟨⟨e, he⟩, rfl, ⟨te, rfl⟩, ?_, hkind⟩
    intro r c v hmem
    simp only [List.mem_append, List.mem_cons] at hmem
    rcases hmem with hmem | hmem | hmem
    · exact absurd (List.eq_of_mem_replicate hmem) (by simp)
    · exact Ev.noConfusion hmem
    · have hevs : evs = (resolveColumns types (metaPy cols) 0).1 := by rw [hrc]
      obtain ⟨j, hj⟩ := resolveColumns_events types (metaPy cols) 0 _ (hevs ▸ hmem)
      exact Ev.noConfusion hj

theorem c6_witness :
    (parse_json_compact defaultTypes
        ⟨1, mkEnvelope [("n", "Bogus(UInt8)")] [[Json.intLit 1]]⟩ 1).2.1 = []
    ∧ (∃ te, (parse_json_compact defaultTypes
        ⟨1, mkEnvelope [("n", "Bogus(UInt8)")] [[Json.intLit 1]]⟩ 1).2.2
      = some (Err.typeErr te))
    ∧ parse_type defaultTypes "Bogus(UInt8)"
      = Except.error (TypeErr.unknownType "Bogus")
    ∧ ((∃ n, TypeErr.unknownType "Bogus" = TypeErr.unknownType n
          ∧ lookupLast defaultTypes n = none)
        ∨ (∃ nm ctor args, lookupLast defaultTypes nm = some ctor
            ∧ ctor args = Except.error (TypeErr.unknownType "Bogus"))) := by
  have hc := c6_unknown_name_fails_resolution defaultTypes [("n", "Bogus(UInt8)")]
    [[Json.intLit 1]] "Bogus(UInt8)" (Ast.composite "Bogus" [Ast.simple "UInt8"])
    1 1 _ _ _ rfl rfl (by simp) (by decide) rfl
  exact ⟨hc.2.1, hc.2.2.1, rfl, hc.2.2.2.2 (TypeErr.unknownType "Bogus") rfl⟩

theorem c6_counterexample :
    hasUnknownName defaultTypes
      (Ast.composite "Tuple"
        [Ast.composite "Nullable" [Ast.simple "UInt8", Ast.simple "UInt8"],
         Ast.simple "Bogus"]) = true
    ∧ parseDecl "Tuple(Nullable(UInt8, UInt8), Bogus)"
      = Except.ok (Ast.composite "Tuple"
          [Ast.composite "Nullable" [Ast.simple "UInt8", Ast.simple "UInt8"],
           Ast.simple "Bogus"])
    ∧ parse_type defaultTypes "Tuple(Nullable(UInt8, UInt8), Bogus)"
      = Except.error (TypeErr.invalidArgs "Nullable")
    ∧ TypeErr.invalidArgs "Nullable" ≠ TypeErr.unknownType "Bogus" := by
  refine ⟨rfl, rfl, rfl, ?_⟩
  decide
